import Mathlib

/-!
Verification development for the ADBCopy repository.

The definitions below are shallow embeddings of the Python sources:

* `workers/file_list_worker.py`  (`_parse_ls_output`, `RemoteFileInfo`)
* `workers/transfer_worker.py`   (`TransferWorker.start_transfer`, `_push_file`, `_pull_file`)
* `workers/device_watcher.py`    (`DeviceWatcher._devices_changed`)
* `core/adb_manager.py`          (`AdbManager.shell_command`, `AdbManager.file_exists`)
* `main_window.py`               (`MainWindow._get_unique_name`)

Character classes (`\s`, `\d`, `\w`, `str.strip`, `str.lower`) are modelled on
their ASCII fragment; all the strings the program feeds through them
(permission strings, numeric fields, `adb` output lines) are ASCII.
-/

namespace ADBCopy

/-- `RemoteFileInfo` dataclass from `workers/file_list_worker.py`.
`size` is a natural number since it is produced by `int()` on a digit string. -/
structure RemoteFileInfo where
  name : String
  is_dir : Bool
  size : Nat
  permissions : String
  path : String
  date : String
deriving DecidableEq

/-- ASCII model of the whitespace class used by Python's regex `\s` and
`str.strip()`: space, tab, newline, carriage return, vertical tab, form feed. -/
def isPySpace (c : Char) : Bool :=
  c == ' ' || c == '\t' || c == '\n' || c == '\r' || c == '\x0b' || c == '\x0c'

/-- ASCII model of the regex digit class `\d`. -/
def isPyDigit (c : Char) : Bool :=
  '0' ≤ c && c ≤ '9'

/-- ASCII model of the regex word class `\w`. -/
def isPyWord (c : Char) : Bool :=
  isPyDigit c || ('a' ≤ c && c ≤ 'z') || ('A' ≤ c && c ≤ 'Z') || c == '_'

/-- The character class of the permission field in `_parse_ls_output`'s
regex: exactly the seven characters of the class written in the source,
lowercase `s` and `t` included, uppercase `S`/`T` not. -/
def isPermChar (c : Char) : Bool :=
  c == 'd' || c == 'r' || c == 'w' || c == 'x' || c == 's' || c == 't' || c == '-'

/-- Python `str.strip()` on a character list (ASCII whitespace model). -/
def pyStripList (cs : List Char) : List Char :=
  ((cs.dropWhile isPySpace).reverse.dropWhile isPySpace).reverse

/-- Python `str.strip()` on a `String`. -/
def pyStrip (s : String) : String :=
  String.mk (pyStripList s.toList)

/-- Python `"..".split("\n")` on a character list: splits at every newline,
keeping empty pieces, and returns `[[]]` on the empty input, as Python does. -/
def splitLines : List Char → List (List Char)
  | [] => [[]]
  | c :: rest =>
    if c == '\n' then [] :: splitLines rest
    else
      match splitLines rest with
      | [] => [[c]]
      | l :: ls => (c :: l) :: ls

/-- A greedy regex quantifier `p+` whose following token can never match a
`p`-character (the situation everywhere in `_parse_ls_output`'s pattern):
it deterministically consumes the maximal run, which must be nonempty. -/
def span1 (p : Char → Bool) (cs : List Char) : Option (List Char × List Char) :=
  let s := cs.span p
  if s.1.isEmpty then none else some s

/-- A regex fixed-count quantifier `p{n}`: exactly `n` characters of class `p`. -/
def exactN (p : Char → Bool) : Nat → List Char → Option (List Char × List Char)
  | 0, cs => some ([], cs)
  | _ + 1, [] => none
  | n + 1, c :: cs =>
    if p c then (exactN p n cs).map (fun r => (c :: r.1, r.2)) else none

/-- A literal character in the regex. -/
def lit (c : Char) : List Char → Option (List Char)
  | [] => none
  | d :: cs => if d == c then some cs else none

/-- Date alternative `\d{4}-\d{2}-\d{2}` of the regex in `_parse_ls_output`,
returning the captured text and the rest of the line. -/
def dateBranchA (cs : List Char) : Option (List Char × List Char) := do
  let (a, r1) ← exactN isPyDigit 4 cs
  let r2 ← lit '-' r1
  let (b, r3) ← exactN isPyDigit 2 r2
  let r4 ← lit '-' r3
  let (c2, r5) ← exactN isPyDigit 2 r4
  some (a ++ '-' :: b ++ '-' :: c2, r5)

/-- Date alternative `\w{3}\s+\d{1,2}` of the regex.  The captured group
includes the inner whitespace.  Since the alternative is followed by `\s+`
in the pattern, the digit run can only match whole: a run of three or more
digits makes every backtracking choice of `\d{1,2}` fail, so the branch
requires the maximal digit run to have length at most two. -/
def dateBranchB (cs : List Char) : Option (List Char × List Char) := do
  let (w, r1) ← exactN isPyWord 3 cs
  let (sp, r2) ← span1 isPySpace r1
  let (d, r3) ← span1 isPyDigit r2
  if d.length ≤ 2 then some (w ++ sp ++ d, r3) else none

/-- Time alternative `\d{1,2}:\d{2}` of the regex.  The digit run before the
colon is maximal (a colon is not a digit), and must have length one or two. -/
def timeBranchA (cs : List Char) : Option (List Char × List Char) := do
  let (d, r1) ← span1 isPyDigit cs
  if d.length ≤ 2 then do
    let r2 ← lit ':' r1
    let (m, r3) ← exactN isPyDigit 2 r2
    some (d ++ ':' :: m, r3)
  else none

/-- The trailing `\s+(.+)$` of the regex: at least one whitespace character,
then the filename is the entire remaining text, taken verbatim.  When the
remainder after the maximal whitespace run is empty (impossible for the
stripped lines the parser feeds in), greedy backtracking of `\s+` gives back
exactly one whitespace character for `.+` to match. -/
def nameStep (cs : List Char) : Option (List Char) := do
  let (sp, r) ← span1 isPySpace cs
  if r.isEmpty then
    match sp.getLast? with
    | some c => if 2 ≤ sp.length then some [c] else none
    | none => none
  else some r

/-- The time alternation of the regex together with the filename tail.
As in Python's backtracking, the second alternative is tried whenever the
first alternative or the pattern after it fails. -/
def matchTimeName (cs : List Char) : Option (List Char × List Char) :=
  (do
    let (t, r1) ← timeBranchA cs
    let n ← nameStep r1
    some (t, n)) <|>
  (do
    let (t, r1) ← exactN isPyDigit 4 cs
    let n ← nameStep r1
    some (t, n))

/-- The `\s+` separating the date group from the time group, then the rest. -/
def afterDate (cs : List Char) : Option (List Char × List Char) := do
  let (_, r) ← span1 isPySpace cs
  matchTimeName r

/-- The date alternation of the regex together with everything after it. -/
def matchDateTimeName (cs : List Char) : Option (List Char × List Char × List Char) :=
  (do
    let (d, r1) ← dateBranchA cs
    let (t, n) ← afterDate r1
    some (d, t, n)) <|>
  (do
    let (d, r1) ← dateBranchB cs
    let (t, n) ← afterDate r1
    some (d, t, n))

/-- Result of a successful match of `_parse_ls_output`'s regex:
the five captured groups plus the uncaptured fixed fields. -/
structure LsMatch where
  permissions : List Char
  linkCount : List Char
  owner : List Char
  group : List Char
  size : List Char
  datePart : List Char
  timePart : List Char
  name : List Char
deriving DecidableEq

/-- The full regex of `_parse_ls_output`
(`^([drwxst-]{10})\s+\d+\s+\S+\s+\S+\s+(\d+)\s+(date)\s+(time)\s+(.+)$`)
as a matcher on the characters of one line.  Every greedy quantifier in the
pattern is followed by a token from a disjoint character class, so maximal
munch coincides with the backtracking semantics; the two alternations keep
their ordered-choice semantics with full continuation retry. -/
def matchLsLine (cs : List Char) : Option LsMatch := do
  let (perm, r1) ← exactN isPermChar 10 cs
  let (_, r2) ← span1 isPySpace r1
  let (lnk, r3) ← span1 isPyDigit r2
  let (_, r4) ← span1 isPySpace r3
  let (owner, r5) ← span1 (fun c => !isPySpace c) r4
  let (_, r6) ← span1 isPySpace r5
  let (grp, r7) ← span1 (fun c => !isPySpace c) r6
  let (_, r8) ← span1 isPySpace r7
  let (sz, r9) ← span1 isPyDigit r8
  let (_, r10) ← span1 isPySpace r9
  let (d, t, n) ← matchDateTimeName r10
  some ⟨perm, lnk, owner, grp, sz, d, t, n⟩

/-- Python `line.startswith("total")`. -/
def startsWithTotal : List Char → Bool
  | t0 :: t1 :: t2 :: t3 :: t4 :: _ =>
    t0 == 't' && t1 == 'o' && t2 == 't' && t3 == 'a' && t4 == 'l'
  | _ => false

/-- Python `int()` on a decimal digit string. -/
def digitsVal (cs : List Char) : Nat :=
  cs.foldl (fun a c => 10 * a + (c.toNat - '0'.toNat)) 0

/-- Python `s.rstrip('/')`. -/
def rstripSlash (s : String) : String :=
  String.mk ((s.toList.reverse.dropWhile (fun c => c == '/')).reverse)

/-- The body of `_parse_ls_output`'s per-line loop: strip the line, skip it
when it is empty or starts with `total`, match the regex (skip on failure),
drop `.` and `..`, and otherwise build the `RemoteFileInfo`. -/
def parseLsLine (basePath : String) (rawLine : List Char) : Option RemoteFileInfo :=
  let line := pyStripList rawLine
  if line.isEmpty then none
  else if startsWithTotal line then none
  else
    match matchLsLine line with
    | none => none
    | some m =>
      let name := String.mk m.name
      if name = "." ∨ name = ".." then none
      else some
        { name := name
          is_dir := m.permissions.head? == some 'd'
          size := digitsVal m.size
          permissions := String.mk m.permissions
          path := rstripSlash basePath ++ "/" ++ name
          date := String.mk m.datePart ++ " " ++ String.mk m.timePart }

/-- Python `(not f.is_dir)` as the first sort-key component: `False < True`. -/
def dirRank (f : RemoteFileInfo) : Nat :=
  if f.is_dir then 0 else 1

/-- Python `str.lower()` on the ASCII fragment. -/
def pyLower (s : String) : String :=
  String.mk (s.toList.map (fun c => if 'A' ≤ c && c ≤ 'Z' then Char.ofNat (c.toNat + 32) else c))

/-- Python's string comparison: lexicographic on code points. -/
def listCharLe : List Char → List Char → Bool
  | [], _ => true
  | _ :: _, [] => false
  | a :: as, b :: bs =>
    if a.toNat < b.toNat then true
    else if b.toNat < a.toNat then false
    else listCharLe as bs

/-- Python `a <= b` on strings. -/
def pyStrLe (a b : String) : Bool :=
  listCharLe a.toList b.toList

/-- The non-strict order induced by the sort key
`(not f.is_dir, f.name.lower())` of `_parse_ls_output`'s final sort,
with Python's lexicographic tuple comparison. -/
def sortKeyLe (a b : RemoteFileInfo) : Bool :=
  decide (dirRank a < dirRank b) ||
    (dirRank a == dirRank b && pyStrLe (pyLower a.name) (pyLower b.name))

/-- Stable insertion: the new element goes after every element already
placed that compares less-or-equal to it. -/
def insertAfterLe (le : α → α → Bool) (x : α) : List α → List α
  | [] => [x]
  | y :: ys => if le y x then y :: insertAfterLe le x ys else x :: y :: ys

/-- Python's `list.sort` is a stable ascending sort; for the total preorder
`sortKeyLe` its result is uniquely determined, and this stable insertion
sort computes it. -/
def stableSort (le : α → α → Bool) (l : List α) : List α :=
  l.foldl (fun acc x => insertAfterLe le x acc) []

/-- `_parse_ls_output` from `workers/file_list_worker.py`: empty-output
guard, strip, split into lines, per-line parse, and the final
directories-first case-insensitive sort. -/
def parseLsOutput (output : String) (basePath : String) : List RemoteFileInfo :=
  if (pyStrip output).isEmpty then []
  else
    stableSort sortKeyLe
      ((splitLines (pyStripList output.toList)).filterMap (parseLsLine basePath))

/-- `TransferTask` dataclass from `workers/transfer_worker.py`. -/
structure TransferTask where
  task_id : Nat
  filename : String
  source_path : String
  destination_path : String
  direction : String
  device_serial : String
  file_size : Nat
deriving DecidableEq

/-- The speed argument of a `transfer_progress` signal: either a throughput
value in KB/s (the source renders it as a `"{speed:.1f} KB/s"` string) or the
literal `"N/A"` fallback. -/
inductive SpeedRep where
  | kbps (q : ℚ)
  | na
deriving DecidableEq

/-- The Qt signals `TransferWorker` emits while draining its queue. -/
inductive TEvent where
  | started (id : Nat)
  | progress (id : Nat) (percent : Nat) (speed : SpeedRep)
  | completed (id : Nat)
  | failed (id : Nat) (msg : String)
  | allCompleted
deriving DecidableEq

/-- The completion-speed computation shared by `_push_file` (lines 176-181)
and `_pull_file` (lines 215-220): `file_size / elapsed_time / 1024` KB/s when
the measured elapsed time is positive, and the `"N/A"` fallback otherwise.
Elapsed time is modelled as an exact rational. -/
def transferSpeed (fileSize : Nat) (elapsed : ℚ) : SpeedRep :=
  if 0 < elapsed then .kbps ((fileSize : ℚ) / elapsed / 1024) else .na

/-- `TransferWorker._push_file`: the initial 0% progress signal, then the
blocking `adb push` (its outcome supplied by the `res` oracle); on success a
100% progress signal carrying `transferSpeed`, on a bridge error a raised
exception with the `Push failed: ` message.  Returns the emitted events and
the raised message, if any. -/
def pushFileRun (res : Except String Unit) (elapsed : ℚ) (t : TransferTask) :
    List TEvent × Option String :=
  match res with
  | .ok _ =>
    ([.progress t.task_id 0 (.kbps 0),
      .progress t.task_id 100 (transferSpeed t.file_size elapsed)], none)
  | .error e => ([.progress t.task_id 0 (.kbps 0)], some ("Push failed: " ++ e))

/-- `TransferWorker._pull_file`, symmetric to `pushFileRun`. -/
def pullFileRun (res : Except String Unit) (elapsed : ℚ) (t : TransferTask) :
    List TEvent × Option String :=
  match res with
  | .ok _ =>
    ([.progress t.task_id 0 (.kbps 0),
      .progress t.task_id 100 (transferSpeed t.file_size elapsed)], none)
  | .error e => ([.progress t.task_id 0 (.kbps 0)], some ("Pull failed: " ++ e))

/-- `TransferWorker._process_task`: dispatch on the direction string; an
unknown direction raises `ValueError` before emitting anything.  The bridge
outcome and the measured elapsed time of each task are supplied by oracles. -/
def processTask (bridge : TransferTask → Except String Unit)
    (elapsed : TransferTask → ℚ) (t : TransferTask) : List TEvent × Option String :=
  if t.direction = "push" then pushFileRun (bridge t) (elapsed t) t
  else if t.direction = "pull" then pullFileRun (bridge t) (elapsed t) t
  else ([], some ("Unknown transfer direction: " ++ t.direction))

/-- One iteration of `start_transfer`'s try/except body for a popped task:
`transfer_started`, the `_process_task` events, then `transfer_completed` on
normal return or `transfer_failed` with `str(e)` when an exception was
raised. -/
def taskTrace (bridge : TransferTask → Except String Unit)
    (elapsed : TransferTask → ℚ) (t : TransferTask) : List TEvent :=
  let r := processTask bridge elapsed t
  .started t.task_id ::
    r.1 ++
      (match r.2 with
       | none => [.completed t.task_id]
       | some m => [.failed t.task_id m])

/-- The `while self._running and self.task_queue` loop of
`TransferWorker.start_transfer` (lines 84-108).  `stop i = true` models
`stop()` having cleared `self._running` before iteration `i`; the pause spin
only sleeps and is invisible in the event trace.  Returns the emitted events
and the tasks left in the queue. -/
def drainLoop (bridge : TransferTask → Except String Unit)
    (elapsed : TransferTask → ℚ) (stop : Nat → Bool) :
    List TransferTask → Nat → List TEvent × List TransferTask
  | [], _ => ([], [])
  | t :: rest, i =>
    if stop i then ([], t :: rest)
    else
      let r := drainLoop bridge elapsed stop rest (i + 1)
      (taskTrace bridge elapsed t ++ r.1, r.2)

/-- `TransferWorker.start_transfer` (lines 76-117): run the drain loop, emit
`all_completed` exactly when the queue is empty afterwards, and clear
`self._running`.  Result: the event trace and the final `_running` flag. -/
def startTransfer (bridge : TransferTask → Except String Unit)
    (elapsed : TransferTask → ℚ) (stop : Nat → Bool)
    (queue : List TransferTask) : List TEvent × Bool :=
  let r := drainLoop bridge elapsed stop queue 0
  (r.1 ++ (if r.2.isEmpty then [.allCompleted] else []), false)

/-- The event trace of processing a whole queue in order, one `taskTrace`
per task. -/
def tracesOf (bridge : TransferTask → Except String Unit)
    (elapsed : TransferTask → ℚ) : List TransferTask → List TEvent
  | [] => []
  | t :: q => taskTrace bridge elapsed t ++ tracesOf bridge elapsed q

/-- `AdbDevice` dataclass from `core/adb_manager.py`. -/
structure AdbDevice where
  serial : String
  state : String
  model : Option String
deriving DecidableEq

/-- The `(d.serial, d.state)` projection used by
`DeviceWatcher._devices_changed`. -/
def devicePairs (l : List AdbDevice) : List (String × String) :=
  l.map (fun d => (d.serial, d.state))

/-- Python set equality of two pair lists: mutual membership. -/
def samePairSet (a b : List (String × String)) : Bool :=
  a.all (fun x => decide (x ∈ b)) && b.all (fun x => decide (x ∈ a))

/-- `DeviceWatcher._devices_changed` (lines 68-84): report a change when the
list lengths differ, otherwise when the sets of `(serial, state)` pairs
differ. -/
def devicesChanged (lastDevices current : List AdbDevice) : Bool :=
  if current.length ≠ lastDevices.length then true
  else !samePairSet (devicePairs current) (devicePairs lastDevices)

/-- The ways `subprocess.run` fails in `AdbManager.shell_command`:
`TimeoutExpired`, `CalledProcessError` (non-zero exit, carrying stderr), or
`FileNotFoundError` when the adb executable is missing. -/
inductive RunError where
  | timeoutExpired
  | calledProcess (stderr : String)
  | fileNotFound
deriving DecidableEq

/-- What escapes `AdbManager.shell_command`: a `subprocess.SubprocessError`
raised by its two except clauses, or an exception of another class that none
of its except clauses catch. -/
inductive ShellError where
  | subprocessError (msg : String)
  | fileNotFound
deriving DecidableEq

/-- `AdbManager.shell_command` (lines 131-169) with the `subprocess.run`
outcome supplied by the `res` oracle: `TimeoutExpired` and
`CalledProcessError` are re-raised as `SubprocessError` with formatted
messages, while `FileNotFoundError` matches neither except clause and
propagates unchanged. -/
def shellCommand (cmd : String) (res : Except RunError String) :
    Except ShellError String :=
  match res with
  | .ok out => .ok out
  | .error .timeoutExpired => .error (.subprocessError ("Shell command timeout: " ++ cmd))
  | .error (.calledProcess stderr) =>
    .error (.subprocessError ("Shell command execution failed: " ++ stderr))
  | .error .fileNotFound => .error .fileNotFound

/-- The probe command `AdbManager.file_exists` builds for a remote path. -/
def testCmd (remotePath : String) : String :=
  "test -e '" ++ remotePath ++ "' && echo 'YES' || echo 'NO'"

/-- `AdbManager.file_exists` (lines 305-330): run the probe through
`shellCommand`, compare the stripped output with `YES`, and turn a caught
`SubprocessError` into `False`; any other exception propagates. -/
def fileExists (remotePath : String) (res : Except RunError String) :
    Except ShellError Bool :=
  match shellCommand (testCmd remotePath) res with
  | .ok out => .ok (pyStrip out = "YES")
  | .error (.subprocessError _) => .ok false
  | .error .fileNotFound => .error .fileNotFound

/-- The candidate path `f"{dest_path.rstrip('/')}/{base_name}_{counter}{ext}"`
built by `MainWindow._get_unique_name`. -/
def mkCandidate (destPath stem ext : String) (counter : Nat) : String :=
  rstripSlash destPath ++ "/" ++ (stem ++ "_" ++ toString counter ++ ext)

/-- The `while True` loop of `_get_unique_name` (lines 916-929), with the
remote existence probe supplied by the oracle `ex`.  The source breaks when
`counter + 1 > 100`, i.e. at `counter = 100`; `fuel` carries `100 - counter`,
so the initial call has `fuel = 99` at `counter = 1`.  Returns the chosen
path together with the number of existence probes performed. -/
def uniqueLoop (ex : String → Bool) (mk : Nat → String) :
    Nat → Nat → String × Nat
  | fuel, counter =>
    let p := mk counter
    if ex p = false then (p, 1)
    else
      match fuel with
      | 0 => (p, 1)
      | f + 1 =>
        let r := uniqueLoop ex mk f (counter + 1)
        (r.1, r.2 + 1)

/-- `MainWindow._get_unique_name`, parameterised by the stem and extension
that the source extracts with `Path(filename).stem` / `.suffix`. -/
def getUniqueName (ex : String → Bool) (destPath stem ext : String) : String :=
  (uniqueLoop ex (mkCandidate destPath stem ext) 99 1).1

/-- The number of remote existence probes `_get_unique_name` performs. -/
def getUniqueNameProbes (ex : String → Bool) (destPath stem ext : String) : Nat :=
  (uniqueLoop ex (mkCandidate destPath stem ext) 99 1).2

/-- A token matching the regex `\s+`: a nonempty run of whitespace. -/
def SpaceRun (sp : List Char) : Prop :=
  sp ≠ [] ∧ ∀ c ∈ sp, isPySpace c = true

/-- A token matching the date alternative `\d{4}-\d{2}-\d{2}`. -/
def DateShapeA (d : List Char) : Prop :=
  ∃ a b c, d = a ++ '-' :: b ++ '-' :: c ∧
    a.length = 4 ∧ b.length = 2 ∧ c.length = 2 ∧
    (∀ x ∈ a, isPyDigit x = true) ∧ (∀ x ∈ b, isPyDigit x = true) ∧
    (∀ x ∈ c, isPyDigit x = true)

/-- A token matching the date alternative `\w{3}\s+\d{1,2}` (itself followed
by `\s+` in the pattern, so the digit run is maximal of length one or two). -/
def DateShapeB (d : List Char) : Prop :=
  ∃ w sp dd, d = w ++ sp ++ dd ∧
    w.length = 3 ∧ (∀ x ∈ w, isPyWord x = true) ∧
    sp ≠ [] ∧ (∀ x ∈ sp, isPySpace x = true) ∧
    dd ≠ [] ∧ dd.length ≤ 2 ∧ (∀ x ∈ dd, isPyDigit x = true)

/-- A token matching the time alternative `\d{1,2}:\d{2}`. -/
def TimeShapeA (t : List Char) : Prop :=
  ∃ h m, t = h ++ ':' :: m ∧
    h ≠ [] ∧ h.length ≤ 2 ∧ m.length = 2 ∧
    (∀ x ∈ h, isPyDigit x = true) ∧ (∀ x ∈ m, isPyDigit x = true)

/-- A token matching the year alternative `\d{4}`. -/
def TimeShapeB (t : List Char) : Prop :=
  t.length = 4 ∧ ∀ x ∈ t, isPyDigit x = true

/-- A nonempty all-digit token (`\d+`). -/
def DigitRun (d : List Char) : Prop :=
  d ≠ [] ∧ ∀ c ∈ d, isPyDigit c = true

/-- A nonempty token with no whitespace (`\S+`). -/
def NonSpaceRun (d : List Char) : Prop :=
  d ≠ [] ∧ ∀ c ∈ d, isPySpace c = false

end ADBCopy

namespace ADBCopy

theorem uniqueLoop_probes_le (ex : String → Bool) (mk : Nat → String) :
    ∀ fuel counter, (uniqueLoop ex mk fuel counter).2 ≤ fuel + 1 := by
  intro fuel
  induction fuel with
  | zero =>
    intro counter
    by_cases h : ex (mk counter) = false <;> simp [uniqueLoop, h]
  | succ f ih =>
    intro counter
    by_cases h : ex (mk counter) = false
    · simp [uniqueLoop, h]
    · simp only [uniqueLoop, h, if_false]
      exact Nat.succ_le_succ (ih (counter + 1))

theorem uniqueLoop_all_exist (ex : String → Bool) (mk : Nat → String) :
    ∀ fuel counter,
      (∀ i, counter ≤ i → i ≤ counter + fuel → ex (mk i) = true) →
      uniqueLoop ex mk fuel counter = (mk (counter + fuel), fuel + 1) := by
  intro fuel
  induction fuel with
  | zero =>
    intro counter h
    have hc := h counter le_rfl (by omega)
    simp [uniqueLoop, hc]
  | succ f ih =>
    intro counter h
    have hc := h counter le_rfl (by omega)
    have hrec := ih (counter + 1) (fun i h1 h2 => h i (by omega) (by omega))
    have he : counter + 1 + f = counter + (f + 1) := by omega
    simp [uniqueLoop, hc, hrec, he]

/-- C3: the unique-name helper performs at most 100 existence probes, and
when every candidate from stem_1 to stem_100 exists it stops after the
100th probe and returns the 100th candidate. -/
theorem unique_name_bounded (ex : String → Bool) (destPath stem ext : String) :
    getUniqueNameProbes ex destPath stem ext ≤ 100 ∧
    ((∀ i, 1 ≤ i → i ≤ 100 → ex (mkCandidate destPath stem ext i) = true) →
      getUniqueName ex destPath stem ext = mkCandidate destPath stem ext 100 ∧
      getUniqueNameProbes ex destPath stem ext = 100) := by
  constructor
  · exact uniqueLoop_probes_le ex (mkCandidate destPath stem ext) 99 1
  · intro h
    have heq := uniqueLoop_all_exist ex (mkCandidate destPath stem ext) 99 1
      (fun i h1 h2 => h i h1 (by omega))
    constructor
    · show (uniqueLoop ex (mkCandidate destPath stem ext) 99 1).1 = _
      rw [heq]
    · show (uniqueLoop ex (mkCandidate destPath stem ext) 99 1).2 = _
      rw [heq]

theorem unique_name_bounded_w :
    getUniqueName (fun _ => true) "/sdcard/Download" "report" ".txt" =
      "/sdcard/Download/report_100.txt" := by
  have h := ((unique_name_bounded (fun _ => true) "/sdcard/Download" "report" ".txt").2
    (fun i h1 h2 => rfl)).1
  rw [h]
  decide

/-- C10 counterexample: a missing adb executable is a bridge failure for
which file_exists does not return False: the FileNotFoundError propagates. -/
theorem file_exists_missing_adb_cex :
    fileExists "/sdcard/x" (Except.error RunError.fileNotFound) =
      Except.error ShellError.fileNotFound ∧
    Except.error ShellError.fileNotFound ≠ (Except.ok false : Except ShellError Bool) := by
  exact ⟨rfl, by simp⟩

/-- C10 amended: file_exists returns False for a timeout or a non-zero exit
of the probe command, and then the unique-name helper returns its first
candidate; but a missing adb executable raises FileNotFoundError, which
none of its except clauses catch, so that failure propagates. -/
theorem file_exists_error_behaviour (remotePath stderr : String) :
    fileExists remotePath (Except.error RunError.timeoutExpired) = Except.ok false ∧
    fileExists remotePath (Except.error (RunError.calledProcess stderr)) = Except.ok false ∧
    fileExists remotePath (Except.error RunError.fileNotFound) =
      Except.error ShellError.fileNotFound ∧
    ∀ destPath stem ext, getUniqueName (fun _ => false) destPath stem ext =
      mkCandidate destPath stem ext 1 := by
  exact ⟨rfl, rfl, rfl, fun destPath stem ext => rfl⟩

/-- C4 counterexample: with non-positive elapsed time the completion speed is
the N/A marker, not a zero throughput. -/
theorem transfer_speed_zero_elapsed_cex :
    transferSpeed 1000 0 = SpeedRep.na ∧ SpeedRep.na ≠ SpeedRep.kbps 0 := by
  constructor
  · simp [transferSpeed]
  · simp

/-- C4 amended: on success the completion progress event carries throughput
file_size / elapsed / 1024 KB/s when elapsed is positive, and the string
N/A (not 0) when elapsed is non-positive. -/
theorem transfer_speed_formula (sz : Nat) (e : ℚ) (t : TransferTask) :
    (0 < e → transferSpeed sz e = SpeedRep.kbps ((sz : ℚ) / e / 1024)) ∧
    (e ≤ 0 → transferSpeed sz e = SpeedRep.na) ∧
    pushFileRun (Except.ok ()) e t =
      ([TEvent.progress t.task_id 0 (SpeedRep.kbps 0),
        TEvent.progress t.task_id 100 (transferSpeed t.file_size e)], none) ∧
    pullFileRun (Except.ok ()) e t =
      ([TEvent.progress t.task_id 0 (SpeedRep.kbps 0),
        TEvent.progress t.task_id 100 (transferSpeed t.file_size e)], none) := by
  refine ⟨fun h => ?_, fun h => ?_, rfl, rfl⟩
  · simp [transferSpeed, h]
  · simp [transferSpeed, not_lt.mpr h]

theorem transfer_speed_formula_w :
    transferSpeed 2048 2 = SpeedRep.kbps 1 ∧ transferSpeed 2048 0 = SpeedRep.na := by
  constructor
  · have h := (transfer_speed_formula 2048 2 ⟨0, "", "", "", "push", "", 0⟩).1 (by norm_num)
    rw [h]
    norm_num
  · exact (transfer_speed_formula 2048 0 ⟨0, "", "", "", "push", "", 0⟩).2.1 le_rfl

theorem samePairSet_length_eq {a b : List (String × String)}
    (ha : a.Nodup) (hb : b.Nodup) (h : samePairSet a b = true) :
    a.length = b.length := by
  simp only [samePairSet, Bool.and_eq_true, List.all_eq_true, decide_eq_true_eq] at h
  obtain ⟨hab, hba⟩ := h
  have hfin : a.toFinset = b.toFinset := by
    ext x
    simp only [List.mem_toFinset]
    exact ⟨hab x, hba x⟩
  calc a.length = a.toFinset.card := (List.toFinset_card_of_nodup ha).symm
    _ = b.toFinset.card := by rw [hfin]
    _ = b.length := List.toFinset_card_of_nodup hb

/-- C5 counterexample: with a duplicated (serial, state) pair in the new
list, the watcher reports a change (the length check fires) even though the
set of pairs is unchanged, so the fires-iff-set-differs claim fails. -/
theorem devices_changed_duplicate_cex :
    devicesChanged [⟨"A", "device", none⟩]
      [⟨"A", "device", none⟩, ⟨"A", "device", none⟩] = true ∧
    samePairSet
      (devicePairs [⟨"A", "device", none⟩, ⟨"A", "device", none⟩])
      (devicePairs [⟨"A", "device", none⟩]) = true := by
  decide

/-- C5 amended: whenever the previous and current device lists carry no
duplicate (serial, state) pair, the watcher reports a change exactly when
the set of pairs differs (in general it also fires on a pure length
difference caused by duplicates). -/
theorem devices_changed_characterisation (lastDevices current : List AdbDevice)
    (h1 : (devicePairs lastDevices).Nodup) (h2 : (devicePairs current).Nodup) :
    devicesChanged lastDevices current =
      !samePairSet (devicePairs current) (devicePairs lastDevices) := by
  unfold devicesChanged
  by_cases hl : current.length = lastDevices.length
  · simp [hl]
  · simp only [ne_eq, hl, not_false_iff, if_true]
    cases hs : samePairSet (devicePairs current) (devicePairs lastDevices) with
    | false => rfl
    | true =>
      exfalso
      apply hl
      have := samePairSet_length_eq h2 h1 hs
      simpa [devicePairs] using this

theorem devices_changed_characterisation_w :
    devicesChanged [⟨"A", "device", none⟩] [⟨"A", "offline", none⟩] = true ∧
    devicesChanged [⟨"A", "device", none⟩] [⟨"A", "device", none⟩] = false := by
  constructor
  · rw [devices_changed_characterisation _ _ (by decide) (by decide)]
    decide
  · rw [devices_changed_characterisation _ _ (by decide) (by decide)]
    decide


theorem drainLoop_no_stop (bridge : TransferTask → Except String Unit)
    (elapsed : TransferTask → ℚ) :
    ∀ (q : List TransferTask) (i : Nat),
      drainLoop bridge elapsed (fun _ => false) q i =
        (tracesOf bridge elapsed q, []) := by
  intro q
  induction q with
  | nil => intro i; rfl
  | cons t rest ih =>
    intro i
    simp [drainLoop, tracesOf, ih (i + 1)]

theorem mem_tracesOf {bridge : TransferTask → Except String Unit}
    {elapsed : TransferTask → ℚ} {t : TransferTask} {q : List TransferTask}
    (ht : t ∈ q) {e : TEvent} (he : e ∈ taskTrace bridge elapsed t) :
    e ∈ tracesOf bridge elapsed q := by
  induction q with
  | nil => cases ht
  | cons s rest ih =>
    rcases List.mem_cons.mp ht with h | h
    · subst h
      simp only [tracesOf]
      exact List.mem_append_left _ he
    · simp only [tracesOf]
      exact List.mem_append_right _ (ih h)

/-- C2: with no Stop request, the drain loop runs until the queue is
exhausted; every queued task gets a started event, and a task whose copy
raises gets a failed event carrying the raised message while the remaining
tasks are still processed. -/
theorem task_failure_never_halts (bridge : TransferTask → Except String Unit)
    (elapsed : TransferTask → ℚ) (queue : List TransferTask) :
    (drainLoop bridge elapsed (fun _ => false) queue 0).2 = [] ∧
    ∀ t ∈ queue,
      TEvent.started t.task_id ∈ (drainLoop bridge elapsed (fun _ => false) queue 0).1 ∧
      ∀ m, (processTask bridge elapsed t).2 = some m →
        TEvent.failed t.task_id m ∈ (drainLoop bridge elapsed (fun _ => false) queue 0).1 := by
  rw [drainLoop_no_stop]
  refine ⟨rfl, fun t ht => ⟨?_, fun m hm => ?_⟩⟩
  · exact mem_tracesOf ht (by simp [taskTrace])
  · exact mem_tracesOf ht (by simp [taskTrace, hm])

theorem task_failure_never_halts_w :
    TEvent.failed 1 "Push failed: boom" ∈
      (drainLoop (fun _ => Except.error "boom") (fun _ => 1) (fun _ => false)
        [⟨1, "a.txt", "/s/a.txt", "/d/a.txt", "push", "SER", 10⟩,
         ⟨2, "b.txt", "/s/b.txt", "/d/b.txt", "push", "SER", 20⟩] 0).1 ∧
    TEvent.started 2 ∈
      (drainLoop (fun _ => Except.error "boom") (fun _ => 1) (fun _ => false)
        [⟨1, "a.txt", "/s/a.txt", "/d/a.txt", "push", "SER", 10⟩,
         ⟨2, "b.txt", "/s/b.txt", "/d/b.txt", "push", "SER", 20⟩] 0).1 := by
  have h := task_failure_never_halts (fun _ => Except.error "boom") (fun _ => 1)
    [⟨1, "a.txt", "/s/a.txt", "/d/a.txt", "push", "SER", 10⟩,
     ⟨2, "b.txt", "/s/b.txt", "/d/b.txt", "push", "SER", 20⟩]
  refine ⟨(h.2 ⟨1, "a.txt", "/s/a.txt", "/d/a.txt", "push", "SER", 10⟩ (by simp)).2
    "Push failed: boom" (by decide),
    (h.2 ⟨2, "b.txt", "/s/b.txt", "/d/b.txt", "push", "SER", 20⟩ (by simp)).1⟩

theorem allCompleted_not_mem_taskTrace (bridge : TransferTask → Except String Unit)
    (elapsed : TransferTask → ℚ) (t : TransferTask) :
    TEvent.allCompleted ∉ taskTrace bridge elapsed t := by
  by_cases h1 : t.direction = "push" <;> by_cases h2 : t.direction = "pull" <;>
    rcases hb : bridge t with u | e <;>
      simp [taskTrace, processTask, pushFileRun, pullFileRun, h1, h2, hb]

theorem count_allCompleted_tracesOf (bridge : TransferTask → Except String Unit)
    (elapsed : TransferTask → ℚ) :
    ∀ q : List TransferTask,
      (tracesOf bridge elapsed q).count TEvent.allCompleted = 0 := by
  intro q
  induction q with
  | nil => rfl
  | cons t rest ih =>
    simp [tracesOf, List.count_append, ih,
      List.count_eq_zero.mpr (allCompleted_not_mem_taskTrace bridge elapsed t)]

/-- C6: a drain cycle started on a non-empty queue and run without Stop
emits exactly one all-completed event, as the final event after the last
task resolves, and leaves the worker with its running flag cleared. -/
theorem single_all_completed (bridge : TransferTask → Except String Unit)
    (elapsed : TransferTask → ℚ) (queue : List TransferTask) (_hq : queue ≠ []) :
    startTransfer bridge elapsed (fun _ => false) queue =
      (tracesOf bridge elapsed queue ++ [TEvent.allCompleted], false) ∧
    (startTransfer bridge elapsed (fun _ => false) queue).1.count TEvent.allCompleted = 1 ∧
    (startTransfer bridge elapsed (fun _ => false) queue).1.getLast? =
      some TEvent.allCompleted := by
  have h1 : startTransfer bridge elapsed (fun _ => false) queue =
      (tracesOf bridge elapsed queue ++ [TEvent.allCompleted], false) := by
    simp [startTransfer, drainLoop_no_stop]
  refine ⟨h1, ?_, ?_⟩
  · rw [h1]
    simp [List.count_append, count_allCompleted_tracesOf]
  · rw [h1]
    simp

theorem single_all_completed_w :
    (startTransfer (fun _ => Except.ok ()) (fun _ => 1) (fun _ => false)
      [⟨1, "a.txt", "/s/a.txt", "/d/a.txt", "push", "SER", 10⟩]).1.count
        TEvent.allCompleted = 1 ∧
    (startTransfer (fun _ => Except.ok ()) (fun _ => 1) (fun _ => false)
      [⟨1, "a.txt", "/s/a.txt", "/d/a.txt", "push", "SER", 10⟩]).1.getLast? =
      some TEvent.allCompleted := by
  have h := single_all_completed (fun _ => Except.ok ()) (fun _ => 1)
    [⟨1, "a.txt", "/s/a.txt", "/d/a.txt", "push", "SER", 10⟩] (by simp)
  exact ⟨h.2.1, h.2.2⟩


theorem span_loop_eq (p : Char → Bool) :
    ∀ (as acc : List Char),
      List.span.loop p as acc = (acc.reverse ++ as.takeWhile p, as.dropWhile p) := by
  intro as
  induction as with
  | nil => intro acc; simp [List.span.loop]
  | cons a t ih =>
    intro acc
    by_cases h : p a <;>
      simp [List.span.loop, List.takeWhile_cons, List.dropWhile_cons, h, ih]

theorem span_eq (p : Char → Bool) (l : List Char) :
    l.span p = (l.takeWhile p, l.dropWhile p) := by
  simp [List.span, span_loop_eq]

theorem takeWhile_app {p : Char → Bool} {xs ys : List Char}
    (hx : ∀ x ∈ xs, p x = true) (hy : ∀ y, ys.head? = some y → p y = false) :
    (xs ++ ys).takeWhile p = xs := by
  induction xs with
  | nil =>
    cases ys with
    | nil => rfl
    | cons y t => simp [List.takeWhile_cons, hy y rfl]
  | cons x t ih =>
    have hpx := hx x (by simp)
    simp only [List.cons_append, List.takeWhile_cons, hpx, if_true]
    rw [ih (fun z hz => hx z (by simp [hz]))]

theorem dropWhile_app {p : Char → Bool} {xs ys : List Char}
    (hx : ∀ x ∈ xs, p x = true) (hy : ∀ y, ys.head? = some y → p y = false) :
    (xs ++ ys).dropWhile p = ys := by
  induction xs with
  | nil =>
    cases ys with
    | nil => rfl
    | cons y t => simp [List.dropWhile_cons, hy y rfl]
  | cons x t ih =>
    have hpx := hx x (by simp)
    simp only [List.cons_append, List.dropWhile_cons, hpx, if_true]
    exact ih (fun z hz => hx z (by simp [hz]))

theorem span1_app {p : Char → Bool} {xs ys : List Char} (hne : xs ≠ [])
    (hx : ∀ x ∈ xs, p x = true) (hy : ∀ y, ys.head? = some y → p y = false) :
    span1 p (xs ++ ys) = some (xs, ys) := by
  simp only [span1, span_eq, takeWhile_app hx hy, dropWhile_app hx hy]
  cases xs with
  | nil => exact absurd rfl hne
  | cons x t => rfl

theorem exactN_app (p : Char → Bool) :
    ∀ (xs ys : List Char), (∀ x ∈ xs, p x = true) →
      exactN p xs.length (xs ++ ys) = some (xs, ys) := by
  intro xs
  induction xs with
  | nil => intro ys _; rfl
  | cons x t ih =>
    intro ys hx
    have hpx := hx x (by simp)
    simp only [List.length_cons, List.cons_append, exactN, hpx, if_true, List.append_eq]
    rw [ih ys (fun z hz => hx z (by simp [hz]))]
    rfl

theorem exactN_some (p : Char → Bool) :
    ∀ (n : Nat) (cs a b : List Char), exactN p n cs = some (a, b) →
      cs = a ++ b ∧ a.length = n ∧ ∀ x ∈ a, p x = true := by
  intro n
  induction n with
  | zero =>
    intro cs a b h
    simp only [exactN, Option.some_inj, Prod.mk.injEq] at h
    obtain ⟨h1, h2⟩ := h
    subst h1; subst h2
    simp
  | succ k ih =>
    intro cs a b h
    cases cs with
    | nil => simp [exactN] at h
    | cons c t =>
      by_cases hpc : p c
      · simp only [exactN, hpc, if_true] at h
        cases hrec : exactN p k t with
        | none => rw [hrec] at h; simp at h
        | some r =>
          rw [hrec] at h
          obtain ⟨a0, b0⟩ := r
          simp only [Option.map_some', Option.some_inj, Prod.mk.injEq] at h
          obtain ⟨ha, hb⟩ := h
          obtain ⟨hcs, hlen, hall⟩ := ih t a0 b0 hrec
          subst ha; subst hb; subst hcs
          refine ⟨by simp, by simp [hlen], ?_⟩
          intro x hx
          rcases List.mem_cons.mp hx with rfl | hx
          · exact hpc
          · exact hall x hx
      · simp [exactN, hpc] at h

theorem head?_app_ne {l l' : List Char} (h : l ≠ []) : (l ++ l').head? = l.head? := by
  cases l with
  | nil => exact absurd rfl h
  | cons c t => rfl

theorem head_prop {p : Char → Bool} {tok rest : List Char} (hne : tok ≠ [])
    (hall : ∀ x ∈ tok, p x = true) :
    ∀ y, (tok ++ rest).head? = some y → p y = true := by
  intro y hy
  rw [head?_app_ne hne] at hy
  cases tok with
  | nil => exact absurd rfl hne
  | cons c t =>
    simp only [List.head?_cons, Option.some_inj] at hy
    exact hy ▸ hall c (by simp)

theorem space_char_cases (c : Char) (h : isPySpace c = true) :
    c = ' ' ∨ c = '\t' ∨ c = '\n' ∨ c = '\r' ∨ c = '\x0b' ∨ c = '\x0c' := by
  simpa [isPySpace, or_assoc] using h

theorem space_not_digit {c : Char} (h : isPySpace c = true) : isPyDigit c = false := by
  rcases space_char_cases c h with rfl | rfl | rfl | rfl | rfl | rfl <;> decide

theorem space_not_word {c : Char} (h : isPySpace c = true) : isPyWord c = false := by
  rcases space_char_cases c h with rfl | rfl | rfl | rfl | rfl | rfl <;> decide

theorem digit_not_space {c : Char} (h : isPyDigit c = true) : isPySpace c = false := by
  cases hs : isPySpace c
  · rfl
  · exact absurd h (by simp [space_not_digit hs])

theorem word_not_space {c : Char} (h : isPyWord c = true) : isPySpace c = false := by
  cases hs : isPySpace c
  · rfl
  · exact absurd h (by simp [space_not_word hs])

theorem perm_char_cases (c : Char) (h : isPermChar c = true) :
    c = 'd' ∨ c = 'r' ∨ c = 'w' ∨ c = 'x' ∨ c = 's' ∨ c = 't' ∨ c = '-' := by
  simpa [isPermChar, or_assoc] using h

theorem perm_not_space {c : Char} (h : isPermChar c = true) : isPySpace c = false := by
  rcases perm_char_cases c h with rfl | rfl | rfl | rfl | rfl | rfl | rfl <;> decide


theorem head_cons_prop {p : Char → Bool} {c : Char} {rest : List Char} (hc : p c = false) :
    ∀ y, (c :: rest).head? = some y → p y = false := by
  intro y hy
  simp only [List.head?_cons, Option.some_inj] at hy
  exact hy ▸ hc

theorem nameStep_app {sp name : List Char} (hsp : SpaceRun sp)
    (hname : name ≠ []) (hhead : ∀ y, name.head? = some y → isPySpace y = false) :
    nameStep (sp ++ name) = some name := by
  rw [nameStep, span1_app hsp.1 hsp.2 hhead]
  cases name with
  | nil => exact absurd rfl hname
  | cons c t => rfl

theorem timeBranchA_app (h m rest : List Char) (hh : h ≠ []) (hl : h.length ≤ 2)
    (hm : m.length = 2) (hdh : ∀ x ∈ h, isPyDigit x = true)
    (hdm : ∀ x ∈ m, isPyDigit x = true) :
    timeBranchA (h ++ (':' :: (m ++ rest))) = some (h ++ ':' :: m, rest) := by
  have hex : exactN isPyDigit 2 (m ++ rest) = some (m, rest) := by
    rw [← hm]; exact exactN_app _ _ _ hdm
  rw [timeBranchA, span1_app hh hdh (head_cons_prop (by decide))]
  simp [if_pos hl, lit, hex]

theorem timeBranchA_none_4digit (time rest : List Char) (h4 : time.length = 4)
    (hd : ∀ x ∈ time, isPyDigit x = true)
    (hrest : ∀ y, rest.head? = some y → isPyDigit y = false) :
    timeBranchA (time ++ rest) = none := by
  have hne : time ≠ [] := by intro h0; rw [h0] at h4; simp at h4
  rw [timeBranchA, span1_app hne hd hrest]
  simp [h4]

theorem matchTimeName_app {time sp7 name : List Char}
    (ht : TimeShapeA time ∨ TimeShapeB time) (hsp7 : SpaceRun sp7)
    (hname : name ≠ []) (hhead : ∀ y, name.head? = some y → isPySpace y = false) :
    matchTimeName (time ++ (sp7 ++ name)) = some (time, name) := by
  have hns := nameStep_app hsp7 hname hhead
  rcases ht with ⟨h, m, hteq, hh, hl, hm, hdh, hdm⟩ | ⟨h4, hd⟩
  · have hassoc : time ++ (sp7 ++ name) = h ++ (':' :: (m ++ (sp7 ++ name))) := by
      rw [hteq]; simp
    have hbr := timeBranchA_app h m (sp7 ++ name) hh hl hm hdh hdm
    rw [matchTimeName, hassoc, hbr, ← hteq]
    simp [hns]
  · have hA := timeBranchA_none_4digit time (sp7 ++ name) h4 hd
      (fun y hy => space_not_digit (head_prop hsp7.1 hsp7.2 y hy))
    have hex : exactN isPyDigit 4 (time ++ (sp7 ++ name)) = some (time, sp7 ++ name) := by
      rw [← h4]; exact exactN_app _ _ _ hd
    rw [matchTimeName, hA, hex]
    simp [hns]

theorem afterDate_app {sp6 time sp7 name : List Char}
    (hsp6 : SpaceRun sp6) (ht : TimeShapeA time ∨ TimeShapeB time)
    (hsp7 : SpaceRun sp7) (hname : name ≠ [])
    (hhead : ∀ y, name.head? = some y → isPySpace y = false) :
    afterDate (sp6 ++ (time ++ (sp7 ++ name))) = some (time, name) := by
  have htd : ∀ y, (time ++ (sp7 ++ name)).head? = some y → isPySpace y = false := by
    intro y hy
    rcases ht with ⟨h, m, hteq, hh, _, _, hdh, _⟩ | ⟨h4, hd⟩
    · rw [show time ++ (sp7 ++ name) = h ++ (':' :: m ++ (sp7 ++ name)) from by
        rw [hteq]; simp] at hy
      exact digit_not_space (head_prop hh hdh y hy)
    · have hne : time ≠ [] := by intro h0; rw [h0] at h4; simp at h4
      exact digit_not_space (head_prop hne hd y hy)
  rw [afterDate, span1_app hsp6.1 hsp6.2 htd]
  simp [matchTimeName_app ht hsp7 hname hhead]

theorem dateBranchA_app (a b c rest : List Char)
    (ha : a.length = 4) (hb : b.length = 2) (hc : c.length = 2)
    (hda : ∀ x ∈ a, isPyDigit x = true) (hdb : ∀ x ∈ b, isPyDigit x = true)
    (hdc : ∀ x ∈ c, isPyDigit x = true) :
    dateBranchA (a ++ ('-' :: (b ++ ('-' :: (c ++ rest))))) =
      some (a ++ '-' :: b ++ '-' :: c, rest) := by
  have hexa : exactN isPyDigit 4 (a ++ ('-' :: (b ++ ('-' :: (c ++ rest))))) =
      some (a, '-' :: (b ++ ('-' :: (c ++ rest)))) := by
    rw [← ha]; exact exactN_app _ _ _ hda
  have hexb : exactN isPyDigit 2 (b ++ ('-' :: (c ++ rest))) =
      some (b, '-' :: (c ++ rest)) := by
    rw [← hb]; exact exactN_app _ _ _ hdb
  have hexc : exactN isPyDigit 2 (c ++ rest) = some (c, rest) := by
    rw [← hc]; exact exactN_app _ _ _ hdc
  rw [dateBranchA, hexa]
  simp [lit, hexb, hexc]

theorem dateBranchA_none_onB (w sp dd rest : List Char) (hw : w.length = 3)
    (hsp : SpaceRun sp) :
    dateBranchA (w ++ (sp ++ (dd ++ rest))) = none := by
  cases hA : dateBranchA (w ++ (sp ++ (dd ++ rest))) with
  | none => rfl
  | some v =>
    exfalso
    obtain ⟨s0, sptl, hspq⟩ : ∃ s0 t, sp = s0 :: t := by
      cases sp with
      | nil => exact absurd rfl hsp.1
      | cons s0 t => exact ⟨s0, t, rfl⟩
    rw [dateBranchA] at hA
    cases hex : exactN isPyDigit 4 (w ++ (sp ++ (dd ++ rest))) with
    | none => rw [hex] at hA; simp at hA
    | some r =>
      obtain ⟨a2, r1⟩ := r
      obtain ⟨hcs, hlen, hall⟩ := exactN_some _ _ _ _ _ hex
      have h1 : (w ++ (sp ++ (dd ++ rest))).take 4 = a2 := by
        rw [hcs, ← hlen, List.take_left]
      have h2 : (w ++ (sp ++ (dd ++ rest))).take 4 = w ++ [s0] := by
        rw [hspq, show w ++ (s0 :: sptl ++ (dd ++ rest)) =
          w ++ s0 :: (sptl ++ (dd ++ rest)) from by simp]
        rw [List.take_append_eq_append_take]
        rw [List.take_of_length_le (by rw [hw]; norm_num), hw]
        rfl
      have hs0 : isPyDigit s0 = true := by
        apply hall
        rw [← h1, h2]
        simp
      have hsps0 : isPySpace s0 = true := hsp.2 s0 (by rw [hspq]; simp)
      exact absurd hs0 (by simp [space_not_digit hsps0])

theorem dateBranchB_app (w sp dd rest : List Char) (hw : w.length = 3)
    (hwchar : ∀ x ∈ w, isPyWord x = true) (hsp : SpaceRun sp)
    (hdd : dd ≠ []) (hddlen : dd.length ≤ 2) (hddd : ∀ x ∈ dd, isPyDigit x = true)
    (hrest : ∀ y, rest.head? = some y → isPyDigit y = false) :
    dateBranchB (w ++ (sp ++ (dd ++ rest))) = some (w ++ sp ++ dd, rest) := by
  have hexw : exactN isPyWord 3 (w ++ (sp ++ (dd ++ rest))) =
      some (w, sp ++ (dd ++ rest)) := by
    rw [← hw]; exact exactN_app _ _ _ hwchar
  have hsp1 : span1 isPySpace (sp ++ (dd ++ rest)) = some (sp, dd ++ rest) :=
    span1_app hsp.1 hsp.2 (fun y hy => digit_not_space (head_prop hdd hddd y hy))
  have hsp2 : span1 isPyDigit (dd ++ rest) = some (dd, rest) :=
    span1_app hdd hddd hrest
  rw [dateBranchB, hexw]
  simp [hsp1, hsp2, if_pos hddlen]

theorem matchDateTimeName_app {date sp6 time sp7 name : List Char}
    (hd : DateShapeA date ∨ DateShapeB date)
    (hsp6 : SpaceRun sp6) (ht : TimeShapeA time ∨ TimeShapeB time)
    (hsp7 : SpaceRun sp7) (hname : name ≠ [])
    (hhead : ∀ y, name.head? = some y → isPySpace y = false) :
    matchDateTimeName (date ++ (sp6 ++ (time ++ (sp7 ++ name)))) =
      some (date, time, name) := by
  have hrest := afterDate_app hsp6 ht hsp7 hname hhead
  rcases hd with ⟨a, b, c, hdeq, ha, hb, hc, hda, hdb, hdc⟩ |
    ⟨w, sp, dd, hdeq, hw, hwc, hspne, hspall, hddne, hddlen, hddd⟩
  · have hassoc : date ++ (sp6 ++ (time ++ (sp7 ++ name))) =
        a ++ ('-' :: (b ++ ('-' :: (c ++ (sp6 ++ (time ++ (sp7 ++ name)))))))  := by
      rw [hdeq]; simp
    have hbr := dateBranchA_app a b c (sp6 ++ (time ++ (sp7 ++ name)))
      ha hb hc hda hdb hdc
    rw [matchDateTimeName, hassoc, hbr, ← hdeq]
    simp [hrest]
  · have hassoc : date ++ (sp6 ++ (time ++ (sp7 ++ name))) =
        w ++ (sp ++ (dd ++ (sp6 ++ (time ++ (sp7 ++ name))))) := by
      rw [hdeq]; simp
    have hnone := dateBranchA_none_onB w sp dd (sp6 ++ (time ++ (sp7 ++ name))) hw
      ⟨hspne, hspall⟩
    have hbr := dateBranchB_app w sp dd (sp6 ++ (time ++ (sp7 ++ name))) hw hwc
      ⟨hspne, hspall⟩ hddne hddlen hddd
      (fun y hy => space_not_digit (head_prop hsp6.1 hsp6.2 y hy))
    rw [matchDateTimeName, hassoc, hnone, hbr, ← hdeq]
    simp [hrest]


theorem notSpace_run {tok : List Char} (h : ∀ x ∈ tok, isPySpace x = false) :
    ∀ x ∈ tok, (fun c => !isPySpace c) x = true := by
  intro x hx
  simp [h x hx]

theorem dateHead_not_space {date : List Char}
    (hd : DateShapeA date ∨ DateShapeB date) {rest : List Char} :
    ∀ y, (date ++ rest).head? = some y → isPySpace y = false := by
  intro y hy
  rcases hd with ⟨a, b, c, hdeq, ha, _, _, hda, _, _⟩ |
    ⟨w, sp, dd, hdeq, hw, hwc, _, _, _, _, _⟩
  · have hane : a ≠ [] := by intro h0; rw [h0] at ha; simp at ha
    rw [show date ++ rest = a ++ ('-' :: b ++ ('-' :: c ++ rest)) from by
      rw [hdeq]; simp] at hy
    exact digit_not_space (head_prop hane hda y hy)
  · have hwne : w ≠ [] := by intro h0; rw [h0] at hw; simp at hw
    rw [show date ++ rest = w ++ (sp ++ (dd ++ rest)) from by rw [hdeq]; simp] at hy
    exact word_not_space (head_prop hwne hwc y hy)

theorem matchLsLine_build
    (perm sp1 lnk sp2 owner sp3 grp sp4 sz sp5 date sp6 time sp7 name : List Char)
    (hperm : perm.length = 10) (hpc : ∀ c ∈ perm, isPermChar c = true)
    (hsp1 : SpaceRun sp1) (hsp2 : SpaceRun sp2) (hsp3 : SpaceRun sp3)
    (hsp4 : SpaceRun sp4) (hsp5 : SpaceRun sp5) (hsp6 : SpaceRun sp6)
    (hsp7 : SpaceRun sp7)
    (hlnk : DigitRun lnk) (howner : NonSpaceRun owner) (hgrp : NonSpaceRun grp)
    (hsz : DigitRun sz)
    (hdate : DateShapeA date ∨ DateShapeB date)
    (htime : TimeShapeA time ∨ TimeShapeB time)
    (hname : name ≠ []) (hhead : ∀ y, name.head? = some y → isPySpace y = false) :
    matchLsLine (perm ++ (sp1 ++ (lnk ++ (sp2 ++ (owner ++ (sp3 ++ (grp ++ (sp4 ++
        (sz ++ (sp5 ++ (date ++ (sp6 ++ (time ++ (sp7 ++ name)))))))))))))) =
      some ⟨perm, lnk, owner, grp, sz, date, time, name⟩ := by
  have e1 : exactN isPermChar 10 (perm ++ (sp1 ++ (lnk ++ (sp2 ++ (owner ++ (sp3 ++
      (grp ++ (sp4 ++ (sz ++ (sp5 ++ (date ++ (sp6 ++ (time ++ (sp7 ++ name)))))))))))))) =
      some (perm, sp1 ++ (lnk ++ (sp2 ++ (owner ++ (sp3 ++ (grp ++ (sp4 ++
        (sz ++ (sp5 ++ (date ++ (sp6 ++ (time ++ (sp7 ++ name))))))))))))) := by
    rw [← hperm]; exact exactN_app _ _ _ hpc
  have e2 : span1 isPySpace (sp1 ++ (lnk ++ (sp2 ++ (owner ++ (sp3 ++ (grp ++ (sp4 ++
      (sz ++ (sp5 ++ (date ++ (sp6 ++ (time ++ (sp7 ++ name))))))))))))) =
      some (sp1, lnk ++ (sp2 ++ (owner ++ (sp3 ++ (grp ++ (sp4 ++ (sz ++ (sp5 ++
        (date ++ (sp6 ++ (time ++ (sp7 ++ name)))))))))))) :=
    span1_app hsp1.1 hsp1.2 (fun y hy => digit_not_space (head_prop hlnk.1 hlnk.2 y hy))
  have e3 : span1 isPyDigit (lnk ++ (sp2 ++ (owner ++ (sp3 ++ (grp ++ (sp4 ++ (sz ++
      (sp5 ++ (date ++ (sp6 ++ (time ++ (sp7 ++ name)))))))))))) =
      some (lnk, sp2 ++ (owner ++ (sp3 ++ (grp ++ (sp4 ++ (sz ++ (sp5 ++
        (date ++ (sp6 ++ (time ++ (sp7 ++ name))))))))))) :=
    span1_app hlnk.1 hlnk.2 (fun y hy => space_not_digit (head_prop hsp2.1 hsp2.2 y hy))
  have e4 : span1 isPySpace (sp2 ++ (owner ++ (sp3 ++ (grp ++ (sp4 ++ (sz ++ (sp5 ++
      (date ++ (sp6 ++ (time ++ (sp7 ++ name))))))))))) =
      some (sp2, owner ++ (sp3 ++ (grp ++ (sp4 ++ (sz ++ (sp5 ++ (date ++
        (sp6 ++ (time ++ (sp7 ++ name)))))))))) :=
    span1_app hsp2.1 hsp2.2 (fun y hy => by
      have := head_prop howner.1 (notSpace_run howner.2) y hy
      simpa using this)
  have e5 : span1 (fun c => !isPySpace c) (owner ++ (sp3 ++ (grp ++ (sp4 ++ (sz ++
      (sp5 ++ (date ++ (sp6 ++ (time ++ (sp7 ++ name)))))))))) =
      some (owner, sp3 ++ (grp ++ (sp4 ++ (sz ++ (sp5 ++ (date ++ (sp6 ++
        (time ++ (sp7 ++ name))))))))) :=
    span1_app howner.1 (notSpace_run howner.2)
      (fun y hy => by simp [head_prop hsp3.1 hsp3.2 y hy])
  have e6 : span1 isPySpace (sp3 ++ (grp ++ (sp4 ++ (sz ++ (sp5 ++ (date ++ (sp6 ++
      (time ++ (sp7 ++ name))))))))) =
      some (sp3, grp ++ (sp4 ++ (sz ++ (sp5 ++ (date ++ (sp6 ++ (time ++
        (sp7 ++ name)))))))) :=
    span1_app hsp3.1 hsp3.2 (fun y hy => by
      have := head_prop hgrp.1 (notSpace_run hgrp.2) y hy
      simpa using this)
  have e7 : span1 (fun c => !isPySpace c) (grp ++ (sp4 ++ (sz ++ (sp5 ++ (date ++
      (sp6 ++ (time ++ (sp7 ++ name)))))))) =
      some (grp, sp4 ++ (sz ++ (sp5 ++ (date ++ (sp6 ++ (time ++ (sp7 ++ name))))))) :=
    span1_app hgrp.1 (notSpace_run hgrp.2)
      (fun y hy => by simp [head_prop hsp4.1 hsp4.2 y hy])
  have e8 : span1 isPySpace (sp4 ++ (sz ++ (sp5 ++ (date ++ (sp6 ++ (time ++
      (sp7 ++ name))))))) =
      some (sp4, sz ++ (sp5 ++ (date ++ (sp6 ++ (time ++ (sp7 ++ name)))))) :=
    span1_app hsp4.1 hsp4.2 (fun y hy => digit_not_space (head_prop hsz.1 hsz.2 y hy))
  have e9 : span1 isPyDigit (sz ++ (sp5 ++ (date ++ (sp6 ++ (time ++ (sp7 ++ name)))))) =
      some (sz, sp5 ++ (date ++ (sp6 ++ (time ++ (sp7 ++ name))))) :=
    span1_app hsz.1 hsz.2 (fun y hy => space_not_digit (head_prop hsp5.1 hsp5.2 y hy))
  have e10 : span1 isPySpace (sp5 ++ (date ++ (sp6 ++ (time ++ (sp7 ++ name))))) =
      some (sp5, date ++ (sp6 ++ (time ++ (sp7 ++ name)))) :=
    span1_app hsp5.1 hsp5.2 (dateHead_not_space hdate)
  have e11 := matchDateTimeName_app hdate hsp6 htime hsp7 hname hhead
  rw [matchLsLine, e1]
  simp [e2, e3, e4, e5, e6, e7, e8, e9, e10, e11]


theorem pyStripList_eq_self {cs : List Char}
    (hhead : ∀ c, cs.head? = some c → isPySpace c = false)
    (hlast : ∀ c, cs.getLast? = some c → isPySpace c = false) :
    pyStripList cs = cs := by
  have h1 : cs.dropWhile isPySpace = cs := by
    cases cs with
    | nil => rfl
    | cons c t => simp [List.dropWhile_cons, hhead c rfl]
  rw [pyStripList, h1]
  have h2 : cs.reverse.dropWhile isPySpace = cs.reverse := by
    cases hrev : cs.reverse with
    | nil => rfl
    | cons c t =>
      have hc : cs.getLast? = some c := by rw [← List.head?_reverse, hrev]; rfl
      simp [List.dropWhile_cons, hlast c hc]
  rw [h2, List.reverse_reverse]

theorem startsWithTotal_perm {perm : List Char} (rest : List Char)
    (hperm : perm.length = 10)
    (hpc : ∀ c ∈ perm, isPermChar c = true) :
    startsWithTotal (perm ++ rest) = false := by
  obtain ⟨a, b, c, d, e, t5, rfl⟩ :
      ∃ a b c d e t5, perm = a :: b :: c :: d :: e :: t5 := by
    cases perm with
    | nil => simp at hperm
    | cons a t1 =>
      cases t1 with
      | nil => simp at hperm
      | cons b t2 =>
        cases t2 with
        | nil => simp at hperm
        | cons c t3 =>
          cases t3 with
          | nil => simp at hperm
          | cons d t4 =>
            cases t4 with
            | nil => simp at hperm
            | cons e t5 => exact ⟨a, b, c, d, e, t5, rfl⟩
  have hbo : (b == 'o') = false := by
    have hb := hpc b (by simp)
    rcases perm_char_cases b hb with rfl | rfl | rfl | rfl | rfl | rfl | rfl <;> decide
  simp [startsWithTotal, hbo]

theorem getLast?_app_ne {l l' : List Char} (h : l' ≠ []) :
    (l ++ l').getLast? = l'.getLast? := by
  rw [← List.head?_reverse, List.reverse_append,
    head?_app_ne (by simp [h]), List.head?_reverse]

theorem parseLsLine_build
    (basePath : String)
    (perm sp1 lnk sp2 owner sp3 grp sp4 sz sp5 date sp6 time sp7 name : List Char)
    (hperm : perm.length = 10) (hpc : ∀ c ∈ perm, isPermChar c = true)
    (hsp1 : SpaceRun sp1) (hsp2 : SpaceRun sp2) (hsp3 : SpaceRun sp3)
    (hsp4 : SpaceRun sp4) (hsp5 : SpaceRun sp5) (hsp6 : SpaceRun sp6)
    (hsp7 : SpaceRun sp7)
    (hlnk : DigitRun lnk) (howner : NonSpaceRun owner) (hgrp : NonSpaceRun grp)
    (hsz : DigitRun sz)
    (hdate : DateShapeA date ∨ DateShapeB date)
    (htime : TimeShapeA time ∨ TimeShapeB time)
    (hname : name ≠ []) (hhead : ∀ y, name.head? = some y → isPySpace y = false)
    (hlastname : ∀ c, name.getLast? = some c → isPySpace c = false)
    (hnotdot : String.mk name ≠ "." ∧ String.mk name ≠ "..") :
    parseLsLine basePath (perm ++ (sp1 ++ (lnk ++ (sp2 ++ (owner ++ (sp3 ++ (grp ++
        (sp4 ++ (sz ++ (sp5 ++ (date ++ (sp6 ++ (time ++ (sp7 ++ name)))))))))))))) =
      some
        { name := String.mk name
          is_dir := perm.head? == some 'd'
          size := digitsVal sz
          permissions := String.mk perm
          path := rstripSlash basePath ++ "/" ++ String.mk name
          date := String.mk date ++ " " ++ String.mk time } := by
  have hpermne : perm ≠ [] := by intro h0; rw [h0] at hperm; simp at hperm
  have hstrip : pyStripList (perm ++ (sp1 ++ (lnk ++ (sp2 ++ (owner ++ (sp3 ++ (grp ++
      (sp4 ++ (sz ++ (sp5 ++ (date ++ (sp6 ++ (time ++ (sp7 ++ name)))))))))))))) =
      perm ++ (sp1 ++ (lnk ++ (sp2 ++ (owner ++ (sp3 ++ (grp ++ (sp4 ++ (sz ++ (sp5 ++
        (date ++ (sp6 ++ (time ++ (sp7 ++ name))))))))))))) := by
    apply pyStripList_eq_self
    · exact fun c hc => perm_not_space (head_prop hpermne hpc c hc)
    · intro c hc
      rw [getLast?_app_ne (by simp [hname]), getLast?_app_ne (by simp [hname]),
        getLast?_app_ne (by simp [hname]), getLast?_app_ne (by simp [hname]),
        getLast?_app_ne (by simp [hname]), getLast?_app_ne (by simp [hname]),
        getLast?_app_ne (by simp [hname]), getLast?_app_ne (by simp [hname]),
        getLast?_app_ne (by simp [hname]), getLast?_app_ne (by simp [hname]),
        getLast?_app_ne (by simp [hname]), getLast?_app_ne (by simp [hname]),
        getLast?_app_ne (by simp [hname]), getLast?_app_ne hname] at hc
      exact hlastname c hc
  have hne : perm ++ (sp1 ++ (lnk ++ (sp2 ++ (owner ++ (sp3 ++ (grp ++ (sp4 ++ (sz ++
      (sp5 ++ (date ++ (sp6 ++ (time ++ (sp7 ++ name))))))))))))) ≠ [] := by
    simp [hpermne]
  have hmatch := matchLsLine_build perm sp1 lnk sp2 owner sp3 grp sp4 sz sp5 date sp6
    time sp7 name hperm hpc hsp1 hsp2 hsp3 hsp4 hsp5 hsp6 hsp7 hlnk howner hgrp hsz
    hdate htime hname hhead
  have htot := startsWithTotal_perm (sp1 ++ (lnk ++ (sp2 ++ (owner ++ (sp3 ++
    (grp ++ (sp4 ++ (sz ++ (sp5 ++ (date ++ (sp6 ++ (time ++ (sp7 ++ name)))))))))))))
    hperm hpc
  rw [parseLsLine]
  simp only [hstrip, List.isEmpty_eq_false.mpr hne, htot, hmatch, Bool.false_eq_true,
    if_false]
  simp [hnotdot.1, hnotdot.2]


theorem span1_some {p : Char → Bool} {cs a b : List Char}
    (h : span1 p cs = some (a, b)) : cs = a ++ b := by
  rw [span1, span_eq] at h
  by_cases he : (cs.takeWhile p).isEmpty
  · simp [he] at h
  · simp only [he, Bool.false_eq_true, if_false, Option.some_inj, Prod.mk.injEq] at h
    rw [← h.1, ← h.2, List.takeWhile_append_dropWhile]

theorem lit_some {c : Char} {cs r : List Char} (h : lit c cs = some r) : cs = c :: r := by
  cases cs with
  | nil => simp [lit] at h
  | cons d t =>
    by_cases hd : (d == c) = true
    · have hdc : d = c := by simpa using hd
      simp only [lit, hd, if_true, Option.some_inj] at h
      rw [hdc, h]
    · simp [lit, hd] at h

theorem exactN_some_split {p : Char → Bool} {n : Nat} {cs : List Char}
    {v : List Char × List Char} (h : exactN p n cs = some v) : cs = v.1 ++ v.2 := by
  obtain ⟨a, b⟩ := v
  exact (exactN_some p n cs a b h).1

theorem nameStep_some {cs n : List Char} (h : nameStep cs = some n) :
    ∃ pre, cs = pre ++ n := by
  rw [nameStep] at h
  cases hsp : span1 isPySpace cs with
  | none => rw [hsp] at h; simp at h
  | some v =>
    obtain ⟨sp, r⟩ := v
    have hcs : cs = sp ++ r := span1_some hsp
    rw [hsp] at h
    replace h : (if r.isEmpty then
        (match sp.getLast? with
          | some c => if 2 ≤ sp.length then some [c] else none
          | none => none)
        else some r) = some n := h
    by_cases hr : r.isEmpty = true
    · have hrnil : r = [] := by
        cases r
        · rfl
        · simp at hr
      rw [hrnil, List.append_nil] at hcs
      rw [if_pos hr] at h
      cases hlast : sp.getLast? with
      | none => rw [hlast] at h; simp at h
      | some c =>
        rw [hlast] at h
        simp only [] at h
        by_cases hlen : 2 ≤ sp.length
        · rw [if_pos hlen] at h
          have hn : n = [c] := by simpa using h.symm
          have hspne : sp ≠ [] := by
            intro h0
            rw [h0] at hlast
            simp at hlast
          have hsp2 : sp = sp.dropLast ++ [sp.getLast hspne] := by
            rw [List.dropLast_append_getLast]
          have hc : sp.getLast hspne = c := by
            have hgl := List.getLast?_eq_getLast sp hspne
            rw [hgl] at hlast
            exact Option.some_inj.mp hlast
          refine ⟨sp.dropLast, ?_⟩
          rw [hcs, hn, ← hc]
          exact hsp2
        · rw [if_neg hlen] at h
          simp at h
    · rw [if_neg (by simpa using hr)] at h
      have hn : r = n := by simpa using h
      exact ⟨sp, by rw [hcs, hn]⟩

theorem timeBranchA_some {cs : List Char} {v : List Char × List Char}
    (h : timeBranchA cs = some v) : cs = v.1 ++ v.2 := by
  rw [timeBranchA] at h
  cases hsp : span1 isPyDigit cs with
  | none => rw [hsp] at h; simp at h
  | some w =>
    obtain ⟨d, r1⟩ := w
    have hcs : cs = d ++ r1 := span1_some hsp
    rw [hsp] at h
    replace h : (if d.length ≤ 2 then
        (lit ':' r1).bind (fun r2 =>
          (exactN isPyDigit 2 r2).bind (fun w2 => some (d ++ ':' :: w2.1, w2.2)))
      else none) = some v := h
    by_cases hlen : d.length ≤ 2
    · rw [if_pos hlen] at h
      cases hlit : lit ':' r1 with
      | none => rw [hlit] at h; simp at h
      | some r2 =>
        have hr1 : r1 = ':' :: r2 := lit_some hlit
        rw [hlit, Option.some_bind] at h
        cases hex : exactN isPyDigit 2 r2 with
        | none => rw [hex] at h; simp at h
        | some w2 =>
          have hr2 : r2 = w2.1 ++ w2.2 := exactN_some_split hex
          rw [hex, Option.some_bind] at h
          have hv : v = (d ++ ':' :: w2.1, w2.2) := by simpa using h.symm
          rw [hcs, hr1, hr2, hv]
          simp
    · rw [if_neg hlen] at h
      simp at h

theorem timeNameB_some {cs : List Char} {v : List Char × List Char}
    (h : (exactN isPyDigit 4 cs).bind (fun u =>
      (nameStep u.2).bind (fun n => some (u.1, n))) = some v) :
    ∃ pre, cs = pre ++ v.2 := by
  cases hex : exactN isPyDigit 4 cs with
  | none => rw [hex] at h; simp at h
  | some u =>
    have hcs : cs = u.1 ++ u.2 := exactN_some_split hex
    rw [hex, Option.some_bind] at h
    cases hns : nameStep u.2 with
    | none => rw [hns] at h; simp at h
    | some n =>
      obtain ⟨pre2, hpre2⟩ := nameStep_some hns
      rw [hns, Option.some_bind] at h
      have hv : v = (u.1, n) := by simpa using h.symm
      refine ⟨u.1 ++ pre2, ?_⟩
      rw [hcs, hpre2, hv]
      simp

theorem matchTimeName_some {cs : List Char} {v : List Char × List Char}
    (h : matchTimeName cs = some v) : ∃ pre, cs = pre ++ v.2 := by
  rw [matchTimeName] at h
  cases hbr : timeBranchA cs with
  | none =>
    rw [hbr] at h
    replace h : ((none : Option (List Char × List Char)) <|>
        (exactN isPyDigit 4 cs).bind (fun u =>
          (nameStep u.2).bind (fun n => some (u.1, n)))) = some v := h
    rw [Option.none_orElse] at h
    exact timeNameB_some h
  | some w =>
    rw [hbr] at h
    replace h : ((nameStep w.2).bind (fun n => some (w.1, n)) <|>
        (exactN isPyDigit 4 cs).bind (fun u =>
          (nameStep u.2).bind (fun n => some (u.1, n)))) = some v := h
    have hcs : cs = w.1 ++ w.2 := timeBranchA_some hbr
    cases hns : nameStep w.2 with
    | none =>
      rw [hns] at h
      replace h : ((none : Option (List Char × List Char)) <|>
          (exactN isPyDigit 4 cs).bind (fun u =>
            (nameStep u.2).bind (fun n => some (u.1, n)))) = some v := h
      rw [Option.none_orElse] at h
      exact timeNameB_some h
    | some n =>
      obtain ⟨pre2, hpre2⟩ := nameStep_some hns
      rw [hns, Option.some_bind, Option.some_orElse] at h
      have hv : v = (w.1, n) := by simpa using h.symm
      refine ⟨w.1 ++ pre2, ?_⟩
      rw [hcs, hpre2, hv]
      simp

theorem afterDate_some {cs : List Char} {v : List Char × List Char}
    (h : afterDate cs = some v) : ∃ pre, cs = pre ++ v.2 := by
  rw [afterDate] at h
  cases hsp : span1 isPySpace cs with
  | none => rw [hsp] at h; simp at h
  | some w =>
    obtain ⟨sp, r⟩ := w
    have hcs : cs = sp ++ r := span1_some hsp
    rw [hsp] at h
    have hmt : matchTimeName r = some v := h
    obtain ⟨pre2, hpre2⟩ := matchTimeName_some hmt
    exact ⟨sp ++ pre2, by rw [hcs, hpre2]; simp⟩


theorem dateBranchA_some {cs : List Char} {v : List Char × List Char}
    (h : dateBranchA cs = some v) : cs = v.1 ++ v.2 := by
  rw [dateBranchA] at h
  replace h : (exactN isPyDigit 4 cs).bind (fun u1 =>
      (lit '-' u1.2).bind (fun r2 =>
        (exactN isPyDigit 2 r2).bind (fun u2 =>
          (lit '-' u2.2).bind (fun r4 =>
            (exactN isPyDigit 2 r4).bind (fun u3 =>
              some (u1.1 ++ '-' :: u2.1 ++ '-' :: u3.1, u3.2)))))) = some v := h
  cases he1 : exactN isPyDigit 4 cs with
  | none => rw [he1] at h; simp at h
  | some u1 =>
    have hc1 : cs = u1.1 ++ u1.2 := exactN_some_split he1
    rw [he1, Option.some_bind] at h
    cases hl1 : lit '-' u1.2 with
    | none => rw [hl1] at h; simp at h
    | some r2 =>
      have hc2 : u1.2 = '-' :: r2 := lit_some hl1
      rw [hl1, Option.some_bind] at h
      cases he2 : exactN isPyDigit 2 r2 with
      | none => rw [he2] at h; simp at h
      | some u2 =>
        have hc3 : r2 = u2.1 ++ u2.2 := exactN_some_split he2
        rw [he2, Option.some_bind] at h
        cases hl2 : lit '-' u2.2 with
        | none => rw [hl2] at h; simp at h
        | some r4 =>
          have hc4 : u2.2 = '-' :: r4 := lit_some hl2
          rw [hl2, Option.some_bind] at h
          cases he3 : exactN isPyDigit 2 r4 with
          | none => rw [he3] at h; simp at h
          | some u3 =>
            have hc5 : r4 = u3.1 ++ u3.2 := exactN_some_split he3
            rw [he3, Option.some_bind] at h
            have hv : v = (u1.1 ++ '-' :: u2.1 ++ '-' :: u3.1, u3.2) := by
              simpa using h.symm
            rw [hc1, hc2, hc3, hc4, hc5, hv]
            simp

theorem dateBranchB_some {cs : List Char} {v : List Char × List Char}
    (h : dateBranchB cs = some v) : cs = v.1 ++ v.2 := by
  rw [dateBranchB] at h
  replace h : (exactN isPyWord 3 cs).bind (fun u1 =>
      (span1 isPySpace u1.2).bind (fun u2 =>
        (span1 isPyDigit u2.2).bind (fun u3 =>
          if u3.1.length ≤ 2 then some (u1.1 ++ u2.1 ++ u3.1, u3.2) else none))) =
      some v := h
  cases he1 : exactN isPyWord 3 cs with
  | none => rw [he1] at h; simp at h
  | some u1 =>
    have hc1 : cs = u1.1 ++ u1.2 := exactN_some_split he1
    rw [he1, Option.some_bind] at h
    cases hs1 : span1 isPySpace u1.2 with
    | none => rw [hs1] at h; simp at h
    | some u2 =>
      obtain ⟨sp, r2⟩ := u2
      have hc2 : u1.2 = sp ++ r2 := span1_some hs1
      rw [hs1, Option.some_bind] at h
      cases hs2 : span1 isPyDigit r2 with
      | none => rw [hs2] at h; simp at h
      | some u3 =>
        obtain ⟨dd, r3⟩ := u3
        have hc3 : r2 = dd ++ r3 := span1_some hs2
        rw [hs2, Option.some_bind] at h
        by_cases hlen : dd.length ≤ 2
        · rw [if_pos hlen] at h
          have hv : v = (u1.1 ++ sp ++ dd, r3) := by simpa using h.symm
          rw [hc1, hc2, hc3, hv]
          simp
        · rw [if_neg hlen] at h
          simp at h

theorem matchDateTimeName_some {cs : List Char}
    {v : List Char × List Char × List Char}
    (h : matchDateTimeName cs = some v) : ∃ pre, cs = pre ++ v.2.2 := by
  rw [matchDateTimeName] at h
  cases hbr : dateBranchA cs with
  | none =>
    rw [hbr] at h
    replace h : ((none : Option (List Char × List Char × List Char)) <|>
        (dateBranchB cs).bind (fun u =>
          (afterDate u.2).bind (fun w => some (u.1, w.1, w.2)))) = some v := h
    rw [Option.none_orElse] at h
    cases hb : dateBranchB cs with
    | none => rw [hb] at h; simp at h
    | some u =>
      have hc1 : cs = u.1 ++ u.2 := dateBranchB_some hb
      rw [hb, Option.some_bind] at h
      cases ha : afterDate u.2 with
      | none => rw [ha] at h; simp at h
      | some w =>
        obtain ⟨pre2, hpre2⟩ := afterDate_some ha
        rw [ha, Option.some_bind] at h
        have hv : v = (u.1, w.1, w.2) := by simpa using h.symm
        refine ⟨u.1 ++ pre2, ?_⟩
        rw [hc1, hpre2, hv]
        simp
  | some u =>
    rw [hbr] at h
    replace h : ((afterDate u.2).bind (fun w => some (u.1, w.1, w.2)) <|>
        (dateBranchB cs).bind (fun u2 =>
          (afterDate u2.2).bind (fun w => some (u2.1, w.1, w.2)))) = some v := h
    have hc1 : cs = u.1 ++ u.2 := dateBranchA_some hbr
    cases ha : afterDate u.2 with
    | none =>
      rw [ha] at h
      replace h : ((none : Option (List Char × List Char × List Char)) <|>
          (dateBranchB cs).bind (fun u2 =>
            (afterDate u2.2).bind (fun w => some (u2.1, w.1, w.2)))) = some v := h
      rw [Option.none_orElse] at h
      cases hb : dateBranchB cs with
      | none => rw [hb] at h; simp at h
      | some u2 =>
        have hc2 : cs = u2.1 ++ u2.2 := dateBranchB_some hb
        rw [hb, Option.some_bind] at h
        cases ha2 : afterDate u2.2 with
        | none => rw [ha2] at h; simp at h
        | some w =>
          obtain ⟨pre2, hpre2⟩ := afterDate_some ha2
          rw [ha2, Option.some_bind] at h
          have hv : v = (u2.1, w.1, w.2) := by simpa using h.symm
          refine ⟨u2.1 ++ pre2, ?_⟩
          rw [hc2, hpre2, hv]
          simp
    | some w =>
      obtain ⟨pre2, hpre2⟩ := afterDate_some ha
      rw [ha, Option.some_bind] at h
      have hv : v = (u.1, w.1, w.2) := by simpa using h.symm
      refine ⟨u.1 ++ pre2, ?_⟩
      rw [hc1, hpre2, hv]
      simp

theorem matchLsLine_some {cs : List Char} {m : LsMatch}
    (h : matchLsLine cs = some m) : ∃ pre, cs = pre ++ m.name := by
  rw [matchLsLine] at h
  replace h : (exactN isPermChar 10 cs).bind (fun u1 =>
      (span1 isPySpace u1.2).bind (fun u2 =>
        (span1 isPyDigit u2.2).bind (fun u3 =>
          (span1 isPySpace u3.2).bind (fun u4 =>
            (span1 (fun c => !isPySpace c) u4.2).bind (fun u5 =>
              (span1 isPySpace u5.2).bind (fun u6 =>
                (span1 (fun c => !isPySpace c) u6.2).bind (fun u7 =>
                  (span1 isPySpace u7.2).bind (fun u8 =>
                    (span1 isPyDigit u8.2).bind (fun u9 =>
                      (span1 isPySpace u9.2).bind (fun u10 =>
                        (matchDateTimeName u10.2).bind (fun w =>
                          some ⟨u1.1, u3.1, u5.1, u7.1, u9.1,
                            w.1, w.2.1, w.2.2⟩))))))))))) = some m := h
  cases he1 : exactN isPermChar 10 cs with
  | none => rw [he1] at h; simp at h
  | some u1 =>
    have hc1 : cs = u1.1 ++ u1.2 := exactN_some_split he1
    rw [he1, Option.some_bind] at h
    cases hs1 : span1 isPySpace u1.2 with
    | none => rw [hs1] at h; simp at h
    | some u2 =>
      have hc2 : u1.2 = u2.1 ++ u2.2 := by
        obtain ⟨x, y⟩ := u2
        exact span1_some hs1
      rw [hs1, Option.some_bind] at h
      cases hs2 : span1 isPyDigit u2.2 with
      | none => rw [hs2] at h; simp at h
      | some u3 =>
        have hc3 : u2.2 = u3.1 ++ u3.2 := by
          obtain ⟨x, y⟩ := u3
          exact span1_some hs2
        rw [hs2, Option.some_bind] at h
        cases hs3 : span1 isPySpace u3.2 with
        | none => rw [hs3] at h; simp at h
        | some u4 =>
          have hc4 : u3.2 = u4.1 ++ u4.2 := by
            obtain ⟨x, y⟩ := u4
            exact span1_some hs3
          rw [hs3, Option.some_bind] at h
          cases hs4 : span1 (fun c => !isPySpace c) u4.2 with
          | none => rw [hs4] at h; simp at h
          | some u5 =>
            have hc5 : u4.2 = u5.1 ++ u5.2 := by
              obtain ⟨x, y⟩ := u5
              exact span1_some hs4
            rw [hs4, Option.some_bind] at h
            cases hs5 : span1 isPySpace u5.2 with
            | none => rw [hs5] at h; simp at h
            | some u6 =>
              have hc6 : u5.2 = u6.1 ++ u6.2 := by
                obtain ⟨x, y⟩ := u6
                exact span1_some hs5
              rw [hs5, Option.some_bind] at h
              cases hs6 : span1 (fun c => !isPySpace c) u6.2 with
              | none => rw [hs6] at h; simp at h
              | some u7 =>
                have hc7 : u6.2 = u7.1 ++ u7.2 := by
                  obtain ⟨x, y⟩ := u7
                  exact span1_some hs6
                rw [hs6, Option.some_bind] at h
                cases hs7 : span1 isPySpace u7.2 with
                | none => rw [hs7] at h; simp at h
                | some u8 =>
                  have hc8 : u7.2 = u8.1 ++ u8.2 := by
                    obtain ⟨x, y⟩ := u8
                    exact span1_some hs7
                  rw [hs7, Option.some_bind] at h
                  cases hs8 : span1 isPyDigit u8.2 with
                  | none => rw [hs8] at h; simp at h
                  | some u9 =>
                    have hc9 : u8.2 = u9.1 ++ u9.2 := by
                      obtain ⟨x, y⟩ := u9
                      exact span1_some hs8
                    rw [hs8, Option.some_bind] at h
                    cases hs9 : span1 isPySpace u9.2 with
                    | none => rw [hs9] at h; simp at h
                    | some u10 =>
                      have hc10 : u9.2 = u10.1 ++ u10.2 := by
                        obtain ⟨x, y⟩ := u10
                        exact span1_some hs9
                      rw [hs9, Option.some_bind] at h
                      cases hmd : matchDateTimeName u10.2 with
                      | none => rw [hmd] at h; simp at h
                      | some w =>
                        obtain ⟨pre2, hpre2⟩ := matchDateTimeName_some hmd
                        rw [hmd, Option.some_bind] at h
                        have hm : m = ⟨u1.1, u3.1, u5.1, u7.1, u9.1,
                            w.1, w.2.1, w.2.2⟩ := by simpa using h.symm
                        refine ⟨u1.1 ++ (u2.1 ++ (u3.1 ++ (u4.1 ++ (u5.1 ++ (u6.1 ++
                          (u7.1 ++ (u8.1 ++ (u9.1 ++ (u10.1 ++ pre2))))))))), ?_⟩
                        rw [hc1, hc2, hc3, hc4, hc5, hc6, hc7, hc8, hc9, hc10,
                          hpre2, hm]
                        simp


/-- C1 counterexample: a listing line whose ten-character permission string
carries an uppercase S set-gid marker, with all remaining fixed fields
well-formed, is skipped by the parser: the claim says it yields an entry,
but the regex class is lowercase-only and the parse result is empty. -/
theorem uppercase_special_bit_skipped_cex :
    parseLsOutput "drwxr-Sr-x  2 root root 4096 2024-08-01 15:15 foo" "/x" = [] := by
  decide

/-- C1 (amended): every listing line whose ten-character permission string
draws from the lowercase class d r w x s t - (so lowercase set-uid, set-gid
and sticky markers s and t are tolerated, uppercase S and T are not) and
whose link count, owner, group, size, date token and time-or-year token are
well-formed produces the corresponding entry, provided its name is not `.`
or `..`; and every line on which the pattern fails is silently skipped,
yielding no entry and raising no error. -/
theorem ls_line_pattern_behaviour :
    (∀ (basePath : String)
      (perm sp1 lnk sp2 owner sp3 grp sp4 sz sp5 date sp6 time sp7 name : List Char),
      perm.length = 10 → (∀ c ∈ perm, isPermChar c = true) →
      SpaceRun sp1 → SpaceRun sp2 → SpaceRun sp3 → SpaceRun sp4 → SpaceRun sp5 →
      SpaceRun sp6 → SpaceRun sp7 →
      DigitRun lnk → NonSpaceRun owner → NonSpaceRun grp → DigitRun sz →
      (DateShapeA date ∨ DateShapeB date) → (TimeShapeA time ∨ TimeShapeB time) →
      name ≠ [] → (∀ y, name.head? = some y → isPySpace y = false) →
      (∀ c, name.getLast? = some c → isPySpace c = false) →
      String.mk name ≠ "." ∧ String.mk name ≠ ".." →
      parseLsLine basePath (perm ++ (sp1 ++ (lnk ++ (sp2 ++ (owner ++ (sp3 ++ (grp ++
          (sp4 ++ (sz ++ (sp5 ++ (date ++ (sp6 ++ (time ++ (sp7 ++ name)))))))))))))) =
        some
          { name := String.mk name
            is_dir := perm.head? == some 'd'
            size := digitsVal sz
            permissions := String.mk perm
            path := rstripSlash basePath ++ "/" ++ String.mk name
            date := String.mk date ++ " " ++ String.mk time }) ∧
    (∀ (basePath : String) (line : List Char),
      matchLsLine (pyStripList line) = none → parseLsLine basePath line = none) := by
  constructor
  · intro basePath perm sp1 lnk sp2 owner sp3 grp sp4 sz sp5 date sp6 time sp7 name
      hperm hpc hsp1 hsp2 hsp3 hsp4 hsp5 hsp6 hsp7 hlnk howner hgrp hsz hdate htime
      hname hhead hlastname hnotdot
    exact parseLsLine_build basePath perm sp1 lnk sp2 owner sp3 grp sp4 sz sp5 date
      sp6 time sp7 name hperm hpc hsp1 hsp2 hsp3 hsp4 hsp5 hsp6 hsp7 hlnk howner hgrp
      hsz hdate htime hname hhead hlastname hnotdot
  · intro basePath line h
    rw [parseLsLine]
    by_cases h1 : (pyStripList line).isEmpty = true
    · simp [h1]
    · simp [h1, h]

theorem ls_line_pattern_behaviour_w :
    parseLsLine "/sdcard"
      ("drwxrws---  2 u0_a286 media_rw 4096 2024-08-01 15:15 Alarms".toList) =
      some ⟨"Alarms", true, 4096, "drwxrws---", "/sdcard/Alarms", "2024-08-01 15:15"⟩ ∧
    parseLsLine "/x" ("see you later alligator".toList) = none := by
  constructor
  · have h := ls_line_pattern_behaviour.1 "/sdcard"
      "drwxrws---".toList "  ".toList "2".toList " ".toList "u0_a286".toList
      " ".toList "media_rw".toList " ".toList "4096".toList " ".toList
      "2024-08-01".toList " ".toList "15:15".toList " ".toList "Alarms".toList
      (by decide) (by decide)
      ⟨by decide, by decide⟩ ⟨by decide, by decide⟩ ⟨by decide, by decide⟩
      ⟨by decide, by decide⟩ ⟨by decide, by decide⟩ ⟨by decide, by decide⟩
      ⟨by decide, by decide⟩
      ⟨by decide, by decide⟩ ⟨by decide, by decide⟩ ⟨by decide, by decide⟩
      ⟨by decide, by decide⟩
      (Or.inl ⟨"2024".toList, "08".toList, "01".toList, by decide, by decide,
        by decide, by decide, by decide, by decide, by decide⟩)
      (Or.inl ⟨"15".toList, "15".toList, by decide, by decide, by decide, by decide,
        by decide, by decide⟩)
      (by decide)
      (fun y hy => by
        have hb := Option.some_inj.mp hy
        rw [← hb]
        decide)
      (fun c hc => by
        have hb := Option.some_inj.mp hc
        rw [← hb]
        decide)
      ⟨by decide, by decide⟩
    rw [show ("drwxrws---  2 u0_a286 media_rw 4096 2024-08-01 15:15 Alarms".toList) =
      "drwxrws---".toList ++ ("  ".toList ++ ("2".toList ++ (" ".toList ++
      ("u0_a286".toList ++ (" ".toList ++ ("media_rw".toList ++ (" ".toList ++
      ("4096".toList ++ (" ".toList ++ ("2024-08-01".toList ++ (" ".toList ++
      ("15:15".toList ++ (" ".toList ++ "Alarms".toList))))))))))))) from by decide]
    rw [h]
    decide
  · apply ls_line_pattern_behaviour.2
    decide

set_option maxRecDepth 8000 in
/-- C7: the filename captured by the parser is a verbatim suffix of the
line (the entire remainder after the fixed fields, embedded spaces
included); and the two-line end-to-end example parses to a directory
`Alarms` followed by a file `a b.txt`. -/
theorem filename_verbatim_remainder :
    (∀ (cs : List Char) (m : LsMatch), matchLsLine cs = some m →
      ∃ pre, cs = pre ++ m.name) ∧
    parseLsOutput "total 8\ndrwxrws---  2 u0_a286 media_rw 4096 2024-08-01 15:15 Alarms\n-rw-r--r--  1 u0_a286 media_rw 120 2024-08-01 15:15 a b.txt\n" "/sdcard" =
      [⟨"Alarms", true, 4096, "drwxrws---", "/sdcard/Alarms", "2024-08-01 15:15"⟩,
       ⟨"a b.txt", false, 120, "-rw-r--r--", "/sdcard/a b.txt", "2024-08-01 15:15"⟩] := by
  constructor
  · exact fun cs m h => matchLsLine_some h
  · decide

theorem filename_verbatim_remainder_w :
    ∃ pre, ("-rw-r--r--  1 u0_a286 media_rw 120 2024-08-01 15:15 a b.txt".toList) =
      pre ++ ("a b.txt".toList) := by
  exact filename_verbatim_remainder.1
    ("-rw-r--r--  1 u0_a286 media_rw 120 2024-08-01 15:15 a b.txt".toList)
    ⟨"-rw-r--r--".toList, "1".toList, "u0_a286".toList, "media_rw".toList,
      "120".toList, "2024-08-01".toList, "15:15".toList, "a b.txt".toList⟩
    (by decide)


theorem listCharLe_total : ∀ a b : List Char,
    listCharLe a b = true ∨ listCharLe b a = true := by
  intro a
  induction a with
  | nil => intro b; left; rfl
  | cons x xs ih =>
    intro b
    cases b with
    | nil => right; rfl
    | cons y ys =>
      rcases Nat.lt_trichotomy x.toNat y.toNat with h | h | h
      · left; simp [listCharLe, h]
      · have h2 : ¬ x.toNat < y.toNat := by omega
        have h3 : ¬ y.toNat < x.toNat := by omega
        rcases ih ys with hxy | hyx
        · left; simp [listCharLe, h2, h3, hxy]
        · right; simp [listCharLe, h2, h3, hyx]
      · right; simp [listCharLe, h]

theorem listCharLe_trans : ∀ a b c : List Char,
    listCharLe a b = true → listCharLe b c = true → listCharLe a c = true := by
  intro a
  induction a with
  | nil => intro b c _ _; rfl
  | cons x xs ih =>
    intro b c hab hbc
    cases b with
    | nil => simp [listCharLe] at hab
    | cons y ys =>
      cases c with
      | nil => simp [listCharLe] at hbc
      | cons z zs =>
        rcases Nat.lt_trichotomy x.toNat y.toNat with h1 | h1 | h1 <;>
          rcases Nat.lt_trichotomy y.toNat z.toNat with h2 | h2 | h2
        · simp [listCharLe, show x.toNat < z.toNat by omega]
        · simp [listCharLe, show x.toNat < z.toNat by omega]
        · rw [listCharLe, if_neg (by omega), if_pos h2] at hbc
          simp at hbc
        · simp [listCharLe, show x.toNat < z.toNat by omega]
        · rw [listCharLe, if_neg (by omega), if_neg (by omega)] at hab
          rw [listCharLe, if_neg (by omega), if_neg (by omega)] at hbc
          rw [listCharLe, if_neg (by omega), if_neg (by omega)]
          exact ih ys zs hab hbc
        · rw [listCharLe, if_neg (by omega), if_pos h2] at hbc
          simp at hbc
        · rw [listCharLe, if_neg (by omega), if_pos h1] at hab
          simp at hab
        · rw [listCharLe, if_neg (by omega), if_pos h1] at hab
          simp at hab
        · rw [listCharLe, if_neg (by omega), if_pos h1] at hab
          simp at hab

theorem sortKeyLe_total : ∀ a b : RemoteFileInfo,
    sortKeyLe a b = true ∨ sortKeyLe b a = true := by
  intro a b
  rcases Nat.lt_trichotomy (dirRank a) (dirRank b) with h | h | h
  · left; simp [sortKeyLe, h]
  · rcases listCharLe_total (pyLower a.name).data (pyLower b.name).data with
      hle | hle
    · left; simp [sortKeyLe, h, pyStrLe, hle]
    · right; simp [sortKeyLe, h, pyStrLe, hle]
  · right; simp [sortKeyLe, h]

theorem sortKeyLe_false_imp {a b : RemoteFileInfo} (h : sortKeyLe a b = false) :
    sortKeyLe b a = true := by
  rcases sortKeyLe_total a b with h1 | h1
  · rw [h] at h1; exact absurd h1 (by simp)
  · exact h1

theorem sortKeyLe_trans : ∀ a b c : RemoteFileInfo,
    sortKeyLe a b = true → sortKeyLe b c = true → sortKeyLe a c = true := by
  intro a b c hab hbc
  simp only [sortKeyLe, Bool.or_eq_true, Bool.and_eq_true, decide_eq_true_eq,
    beq_iff_eq] at hab hbc ⊢
  rcases hab with hab | ⟨hab1, hab2⟩
  · rcases hbc with hbc | ⟨hbc1, hbc2⟩
    · left; omega
    · left; omega
  · rcases hbc with hbc | ⟨hbc1, hbc2⟩
    · left; omega
    · right
      exact ⟨by omega, listCharLe_trans _ _ _ hab2 hbc2⟩

theorem mem_insertAfterLe {α : Type} (le : α → α → Bool) (x : α) :
    ∀ (l : List α) (z : α), z ∈ insertAfterLe le x l ↔ z = x ∨ z ∈ l := by
  intro l
  induction l with
  | nil => intro z; simp [insertAfterLe]
  | cons y ys ih =>
    intro z
    by_cases h : le y x = true
    · simp only [insertAfterLe, h, if_true, List.mem_cons, ih]
      tauto
    · simp only [insertAfterLe, h, Bool.false_eq_true, if_false, List.mem_cons]

theorem insertAfterLe_pairwise {α : Type} (le : α → α → Bool)
    (htot : ∀ a b, le a b = false → le b a = true)
    (htrans : ∀ a b c, le a b = true → le b c = true → le a c = true) (x : α) :
    ∀ l : List α, l.Pairwise (fun a b => le a b = true) →
      (insertAfterLe le x l).Pairwise (fun a b => le a b = true) := by
  intro l
  induction l with
  | nil => intro _; simp [insertAfterLe]
  | cons y ys ih =>
    intro hp
    obtain ⟨hy, hys⟩ := List.pairwise_cons.mp hp
    by_cases h : le y x = true
    · simp only [insertAfterLe, h, if_true]
      refine List.pairwise_cons.mpr ⟨?_, ih hys⟩
      intro z hz
      rcases (mem_insertAfterLe le x ys z).mp hz with rfl | hz2
      · exact h
      · exact hy z hz2
    · simp only [insertAfterLe, h, Bool.false_eq_true, if_false]
      have hxy : le x y = true := htot y x (by simpa using h)
      refine List.pairwise_cons.mpr ⟨?_, hp⟩
      intro z hz
      rcases List.mem_cons.mp hz with rfl | hz2
      · exact hxy
      · exact htrans x y z hxy (hy z hz2)

theorem stableSort_aux_pairwise {α : Type} (le : α → α → Bool)
    (htot : ∀ a b, le a b = false → le b a = true)
    (htrans : ∀ a b c, le a b = true → le b c = true → le a c = true) :
    ∀ (l acc : List α), acc.Pairwise (fun a b => le a b = true) →
      (List.foldl (fun acc x => insertAfterLe le x acc) acc l).Pairwise
        (fun a b => le a b = true) := by
  intro l
  induction l with
  | nil => intro acc h; exact h
  | cons x xs ih =>
    intro acc h
    exact ih (insertAfterLe le x acc) (insertAfterLe_pairwise le htot htrans x acc h)

theorem stableSort_pairwise {α : Type} (le : α → α → Bool)
    (htot : ∀ a b, le a b = false → le b a = true)
    (htrans : ∀ a b c, le a b = true → le b c = true → le a c = true) (l : List α) :
    (stableSort le l).Pairwise (fun a b => le a b = true) :=
  stableSort_aux_pairwise le htot htrans l [] (by simp)

theorem mem_stableSort_aux {α : Type} (le : α → α → Bool) :
    ∀ (l acc : List α) (z : α),
      z ∈ List.foldl (fun acc x => insertAfterLe le x acc) acc l ↔
        z ∈ acc ∨ z ∈ l := by
  intro l
  induction l with
  | nil => intro acc z; simp
  | cons x xs ih =>
    intro acc z
    simp only [List.foldl_cons, ih, mem_insertAfterLe, List.mem_cons]
    tauto

theorem mem_stableSort {α : Type} (le : α → α → Bool) (l : List α) (z : α) :
    z ∈ stableSort le l ↔ z ∈ l := by
  rw [stableSort, mem_stableSort_aux]
  simp

/-- C8: for every input text and base path, the parsed output is ordered
with every directory before every non-directory, and case-insensitively
ascending names within each of the two groups. -/
theorem parse_output_sorted (output basePath : String) :
    (parseLsOutput output basePath).Pairwise (fun a b =>
      (a.is_dir = true ∧ b.is_dir = false) ∨
      (a.is_dir = b.is_dir ∧ pyStrLe (pyLower a.name) (pyLower b.name) = true)) := by
  have key : ∀ a b : RemoteFileInfo, sortKeyLe a b = true →
      (a.is_dir = true ∧ b.is_dir = false) ∨
      (a.is_dir = b.is_dir ∧ pyStrLe (pyLower a.name) (pyLower b.name) = true) := by
    intro a b h
    simp only [sortKeyLe, Bool.or_eq_true, Bool.and_eq_true, decide_eq_true_eq,
      beq_iff_eq] at h
    rcases h with h | ⟨h1, h2⟩
    · left
      cases ha : a.is_dir <;> cases hb : b.is_dir <;>
        simp [dirRank, ha, hb] at h ⊢
    · right
      refine ⟨?_, h2⟩
      cases ha : a.is_dir <;> cases hb : b.is_dir <;>
        simp [dirRank, ha, hb] at h1 ⊢
  rw [parseLsOutput]
  by_cases hemp : (pyStrip output).isEmpty = true
  · simp [hemp]
  · simp only [hemp, Bool.false_eq_true, if_false]
    exact (stableSort_pairwise sortKeyLe (fun a b => sortKeyLe_false_imp)
      sortKeyLe_trans _).imp (fun h => key _ _ h)


theorem parseLsLine_some_name {basePath : String} {raw : List Char}
    {e : RemoteFileInfo} (h : parseLsLine basePath raw = some e) :
    e.name ≠ "." ∧ e.name ≠ ".." := by
  simp only [parseLsLine] at h
  by_cases h1 : (pyStripList raw).isEmpty = true
  · simp [h1] at h
  · simp only [h1, Bool.false_eq_true, if_false] at h
    by_cases h2 : startsWithTotal (pyStripList raw) = true
    · simp [h2] at h
    · simp only [h2, Bool.false_eq_true, if_false] at h
      cases hm : matchLsLine (pyStripList raw) with
      | none => rw [hm] at h; simp at h
      | some m =>
        rw [hm] at h
        replace h : (if String.mk m.name = "." ∨ String.mk m.name = ".."
            then (none : Option RemoteFileInfo)
            else some { name := String.mk m.name,
                        is_dir := m.permissions.head? == some 'd',
                        size := digitsVal m.size,
                        permissions := String.mk m.permissions,
                        path := rstripSlash basePath ++ "/" ++ String.mk m.name,
                        date := String.mk m.datePart ++ " " ++
                          String.mk m.timePart }) =
            some e := h
        by_cases h3 : String.mk m.name = "." ∨ String.mk m.name = ".."
        · simp [h3] at h
        · rw [if_neg h3] at h
          have he : e = { name := String.mk m.name,
                          is_dir := m.permissions.head? == some 'd',
                          size := digitsVal m.size,
                          permissions := String.mk m.permissions,
                          path := rstripSlash basePath ++ "/" ++ String.mk m.name,
                          date := String.mk m.datePart ++ " " ++
                            String.mk m.timePart } := by
            simpa using h.symm
          push_neg at h3
          rw [he]
          exact h3

/-- C9: no parsed entry comes from a `total` accounting line or carries the
name `.` or `..`: every returned entry's name differs from both, and every
line starting with `total` (after stripping) yields no entry at all. -/
theorem no_dot_or_total_entries (output basePath : String) :
    (∀ e ∈ parseLsOutput output basePath, e.name ≠ "." ∧ e.name ≠ "..") ∧
    (∀ rawLine : List Char, startsWithTotal (pyStripList rawLine) = true →
      parseLsLine basePath rawLine = none) := by
  constructor
  · intro e he
    rw [parseLsOutput] at he
    by_cases hemp : (pyStrip output).isEmpty = true
    · simp [hemp] at he
    · simp only [hemp, Bool.false_eq_true, if_false] at he
      rw [mem_stableSort] at he
      obtain ⟨line, hline, hp⟩ := List.mem_filterMap.mp he
      exact parseLsLine_some_name hp
  · intro raw h
    rw [parseLsLine]
    by_cases h1 : (pyStripList raw).isEmpty = true
    · simp [h1]
    · simp [h1, h]

set_option maxRecDepth 8000 in
theorem no_dot_or_total_entries_w :
    ((⟨"Alarms", true, 4096, "drwxrws---", "/sdcard/Alarms", "2024-08-01 15:15"⟩ :
        RemoteFileInfo).name ≠ "." ∧
      (⟨"Alarms", true, 4096, "drwxrws---", "/sdcard/Alarms",
        "2024-08-01 15:15"⟩ : RemoteFileInfo).name ≠ "..") ∧
    parseLsLine "/x" ("total 8".toList) = none := by
  constructor
  · exact (no_dot_or_total_entries "total 8\ndrwxrws---  2 u0_a286 media_rw 4096 2024-08-01 15:15 Alarms\n-rw-r--r--  1 u0_a286 media_rw 120 2024-08-01 15:15 a b.txt\n" "/sdcard").1
      ⟨"Alarms", true, 4096, "drwxrws---", "/sdcard/Alarms", "2024-08-01 15:15"⟩
      (by decide)
  · exact (no_dot_or_total_entries "" "/x").2 ("total 8".toList) (by decide)

end ADBCopy
